/-
Verification of scripts/commit_and_push.py (Schools-crm commit helper).

The script is embedded shallowly:
* raw file contents are lists of bytes (`List Nat`, each < 256);
* decoded text is a list of Unicode code points (`List Nat`);
* the filesystem is a map from paths to optional entries;
* each external git invocation is an oracle value recorded in `GitEnv`
  (its return code and captured stdout), and `main` is the pure function
  of those oracles that the script's control flow computes, together with
  the list of observable side effects (`Event`) it performs in order.
-/
import Mathlib

namespace CommitPush

/-- Python `str.splitlines` line-boundary code points:
LF, VT, FF, CR, FS, GS, RS, NEL, LINE SEPARATOR, PARAGRAPH SEPARATOR. -/
def isBoundary (c : Nat) : Bool :=
  c == 10 || c == 11 || c == 12 || c == 13 || c == 28 || c == 29 || c == 30 ||
  c == 133 || c == 8232 || c == 8233

/-- The characters stripped by `ln.rstrip(" \t\r\n")` in the script. -/
def isStripWs (c : Nat) : Bool :=
  c == 32 || c == 9 || c == 13 || c == 10

/-- `raw.replace(b"\r\n", b"\n")`: left-to-right, non-overlapping. -/
def replaceCRLF : List Nat → List Nat
  | [] => []
  | 13 :: 10 :: rest => 10 :: replaceCRLF rest
  | c :: rest => c :: replaceCRLF rest

/-- Split off the first line (keeping its terminator, Python
`splitlines(keepends=True)` semantics, `"\r\n"` counting as one
terminator) and return it with the remaining input. -/
def takeLine : List Nat → List Nat × List Nat
  | [] => ([], [])
  | c :: rest =>
    if c = 13 then
      match rest with
      | 10 :: rest2 => ([13, 10], rest2)
      | _ => ([13], rest)
    else if isBoundary c then ([c], rest)
    else ((c :: (takeLine rest).1), (takeLine rest).2)

/-- Fuel-driven worker for `splitlines`. -/
def splitGo : Nat → List Nat → List (List Nat)
  | 0, _ => []
  | _ + 1, [] => []
  | n + 1, c :: rest => (takeLine (c :: rest)).1 :: splitGo n (takeLine (c :: rest)).2

/-- `text.splitlines(True)` on a list of code points. -/
def splitlines (l : List Nat) : List (List Nat) := splitGo l.length l

/-- `l.rstrip(" \t\r\n")` on a list of code points. -/
def rstrip (l : List Nat) : List Nat := ((l.reverse.dropWhile isStripWs)).reverse

/-- Per-line cleaning from `normalize_text_file`: strip trailing
whitespace, putting back the final LF when the line had one. -/
def cleanLine (ln : List Nat) : List Nat :=
  if ln.getLast? = some 10 then rstrip ln ++ [10] else rstrip ln

/-- The whole-text cleaning loop of `normalize_text_file`
(`splitlines(True)`, per-line strip, `"".join`). -/
def textClean (cps : List Nat) : List Nat := ((splitlines cps).map cleanLine).flatten

/-- A UTF-8 continuation byte. -/
def isCont (c : Nat) : Bool := 128 ≤ c && c < 192

/-- Allowed first continuation byte after a three-byte lead: `E0`
forbids overlong forms, `ED` forbids surrogates. -/
def cont3ok (b c1 : Nat) : Bool :=
  if b = 224 then 160 ≤ c1 && c1 < 192
  else if b = 237 then 128 ≤ c1 && c1 < 160
  else isCont c1

/-- Allowed first continuation byte after a four-byte lead: `F0`
forbids overlong forms, `F4` forbids values above U+10FFFF. -/
def cont4ok (b c1 : Nat) : Bool :=
  if b = 240 then 144 ≤ c1 && c1 < 192
  else if b = 244 then 128 ≤ c1 && c1 < 144
  else isCont c1

/-- Code point of a two-byte UTF-8 sequence. -/
def dec2v (b c1 : Nat) : Nat := (b - 192) * 64 + (c1 - 128)

/-- Code point of a three-byte UTF-8 sequence. -/
def dec3v (b c1 c2 : Nat) : Nat := (b - 224) * 4096 + (c1 - 128) * 64 + (c2 - 128)

/-- Code point of a four-byte UTF-8 sequence. -/
def dec4v (b c1 c2 c3 : Nat) : Nat :=
  (b - 240) * 262144 + (c1 - 128) * 4096 + (c2 - 128) * 64 + (c3 - 128)

/-- Continuation of a two-byte sequence. -/
def dec2Step (b : Nat) : List Nat → Option (Nat × List Nat)
  | c1 :: r => if isCont c1 then some (dec2v b c1, r) else none
  | [] => none

/-- Continuation of a three-byte sequence. -/
def dec3Step (b : Nat) : List Nat → Option (Nat × List Nat)
  | c1 :: c2 :: r =>
    if cont3ok b c1 && isCont c2 then some (dec3v b c1 c2, r) else none
  | _ => none

/-- Continuation of a four-byte sequence. -/
def dec4Step (b : Nat) : List Nat → Option (Nat × List Nat)
  | c1 :: c2 :: c3 :: r =>
    if cont4ok b c1 && isCont c2 && isCont c3 then some (dec4v b c1 c2 c3, r) else none
  | _ => none

/-- Decode one UTF-8 sequence from the front of the input, returning
the code point and the remaining bytes; `none` on any malformed front
(bad lead byte, bad continuation byte, overlong form, surrogate, value
above U+10FFFF, truncation, empty input). -/
def utf8DecodeOne : List Nat → Option (Nat × List Nat)
  | [] => none
  | b :: rest =>
    if b < 128 then some (b, rest)
    else if b < 194 then none
    else if b < 224 then dec2Step b rest
    else if b < 240 then dec3Step b rest
    else if b < 245 then dec4Step b rest
    else none

/-- Fuel-driven worker for `utf8Decode`. -/
def utf8DecodeGo : Nat → List Nat → Option (List Nat)
  | _, [] => some []
  | 0, _ :: _ => none
  | n + 1, b :: rest =>
    match utf8DecodeOne (b :: rest) with
    | none => none
    | some (cp, rest2) =>
      match utf8DecodeGo n rest2 with
      | none => none
      | some cps => some (cp :: cps)

/-- Strict UTF-8 decoding (`bytes.decode("utf-8")`): bytes to code
points, `none` on any malformed input. -/
def utf8Decode (bs : List Nat) : Option (List Nat) := utf8DecodeGo bs.length bs

/-- UTF-8 encoding of one Unicode scalar value. -/
def utf8EncodeChar (c : Nat) : List Nat :=
  if c < 128 then [c]
  else if c < 2048 then [192 + c / 64, 128 + c % 64]
  else if c < 65536 then [224 + c / 4096, 128 + c / 64 % 64, 128 + c % 64]
  else [240 + c / 262144, 128 + c / 4096 % 64, 128 + c / 64 % 64, 128 + c % 64]

/-- `text.encode("utf-8")`: code points to bytes. -/
def utf8Encode (cps : List Nat) : List Nat := (cps.map utf8EncodeChar).flatten

/-- A Unicode scalar value (what a Python `str` element can be). -/
def ValidScalar (c : Nat) : Prop := c < 1114112 ∧ ¬(55296 ≤ c ∧ c < 57344)

/-- The full text transform of `normalize_text_file` on raw bytes:
CRLF→LF replacement, strict UTF-8 decode (`none` for binary data),
line-by-line whitespace cleanup, re-encoding. -/
def cleanBytes (raw : List Nat) : Option (List Nat) :=
  match utf8Decode (replaceCRLF raw) with
  | none => none
  | some cps => some (utf8Encode (textClean cps))

/-- One filesystem entry: a regular file with contents, or some other
kind of object (directory and the like, `is_file()` false). -/
structure FsEntry where
  isFile : Bool
  bytes : List Nat
deriving DecidableEq, Repr

/-- `normalize_text_file` acting on the optional filesystem entry at a
path (`none` means the path does not exist).  Returns the `changed`
flag the script reports and the entry after the call. -/
def normalize_text_file : Option FsEntry → Bool × Option FsEntry
  | none => (false, none)
  | some e =>
    if e.isFile then
      match cleanBytes e.bytes with
      | none => (false, some e)
      | some cleaned =>
        if cleaned ≠ e.bytes then (true, some ⟨true, cleaned⟩) else (false, some e)
    else (false, some e)

/-- `str.splitlines` boundary characters, `Char` version. -/
def isBoundaryChar (c : Char) : Bool := isBoundary c.toNat

/-- Characters removed by Python `str.strip()` with no argument
(everything for which `str.isspace` holds). -/
def isPySpace (c : Char) : Bool :=
  [9, 10, 11, 12, 13, 28, 29, 30, 31, 32, 133, 160, 5760,
   8192, 8193, 8194, 8195, 8196, 8197, 8198, 8199, 8200, 8201, 8202,
   8232, 8233, 8239, 8287, 12288].contains c.toNat

/-- Python `s.strip()`. -/
def pyStrip (s : String) : String :=
  ⟨((s.data.dropWhile isPySpace).reverse.dropWhile isPySpace).reverse⟩

/-- Worker for `str.splitlines()` (terminators dropped); `acc` holds the
current line reversed. -/
def pySplitGo (acc : List Char) : List Char → List (List Char)
  | [] => if acc.isEmpty then [] else [acc.reverse]
  | '\r' :: '\n' :: rest => acc.reverse :: pySplitGo [] rest
  | c :: rest =>
    if isBoundaryChar c then acc.reverse :: pySplitGo [] rest
    else pySplitGo (c :: acc) rest

/-- Python `s.splitlines()` on a string (used on captured git output). -/
def splitlinesStr (s : String) : List String := (pySplitGo [] s.data).map List.asString

/-- `startswith` on character lists. -/
def list_startswith : List Char → List Char → Bool
  | [], _ => true
  | _ :: _, [] => false
  | a :: p, b :: s => a == b && list_startswith p s

/-- The hard-coded forbidden path rules of the script. -/
def FORBIDDEN_PATH_PREFIXES : List String := [".env", "server/data/"]

/-- `is_forbidden_path`: `rel.startswith(FORBIDDEN_PATH_PREFIXES)`. -/
def is_forbidden_path (rel : String) : Bool :=
  FORBIDDEN_PATH_PREFIXES.any fun p => list_startswith p.data rel.data

/-- The hard-coded allowlist `FILES_TO_STAGE`. -/
def FILES_TO_STAGE : List String :=
  ["scripts/migrate-to-mongodb.js",
   "scripts/commit_and_push.py",
   "src/vite-env.d.ts",
   "src/types/school.ts",
   "src/components/Dashboard.tsx",
   "src/components/SchoolCard.tsx",
   "src/pages/SchoolsPage.tsx",
   "src/components/pipeline/FillDataMode.tsx",
   "src/components/pipeline/FunnelSelector.tsx",
   "src/components/pipeline/NumericMetricsDistribution.tsx",
   "src/components/pipeline/ResolveUnknownMode.tsx",
   "src/config/api.ts"]

/-- The built-in default commit message. -/
def DEFAULT_MESSAGE : String :=
  "Fix TypeScript build for Vercel\n\n- Fix metric config typing and nullable fields\n- Add Vite env typings and safe JSON parsing\n- Add migration progress output\n"

/-- Observable side effects of one run, in program order: the external
git commands the script launches and the file reads/writes of the
normalization pass. -/
inductive Event where
  | revParse
  | fileRead (p : String)
  | fileWrite (p : String)
  | diffCheck
  | gitAdd
  | stagedQuery
  | gitStatus
  | gitCommit
  | branchQuery
  | gitPush
deriving DecidableEq, Repr

/-- `normalize_files`: walk the list of paths, normalizing each file in
turn.  Returns the changed paths, the filesystem afterwards, and the
file events in order. -/
def normalize_files :
    List String → (String → Option FsEntry) →
    List String × (String → Option FsEntry) × List Event
  | [], fs => ([], fs, [])
  | p :: ps, fs =>
    let r := normalize_text_file (fs p)
    let evs :=
      match fs p with
      | some e =>
        if e.isFile then Event.fileRead p :: (if r.1 then [Event.fileWrite p] else [])
        else []
      | none => []
    let fs' := fun q => if q = p then r.2 else fs q
    let rest := normalize_files ps fs'
    ((if r.1 then [p] else []) ++ rest.1, rest.2.1, evs ++ rest.2.2)

/-- The command-line configuration after argument parsing. -/
structure Config where
  files : List String
  message : String
  dryRun : Bool

/-- Return codes and captured stdout of the external git commands, one
field per invocation site of `run` in `main` and `repo_root`. -/
structure GitEnv where
  toplevelRc : Nat
  toplevelOut : String
  diffCheckRc : Nat
  diffCheckOut : String
  addRc : Nat
  stagedRc : Nat
  stagedOut : String
  statusRc : Nat
  commitRc : Nat
  branchRc : Nat
  branchOut : String
  pushRc : Nat

/-- The script's `main` (together with `repo_root` and the `run`
wrapper): the process exit status and the ordered list of observable
effects.  A `run(..., check=True)` call whose command fails terminates
the process with that command's own status (`raise SystemExit(p.returncode)`),
and `raise SystemExit(msg)` with a string message exits with status 1. -/
def main (cfg : Config) (env : GitEnv) (fs : String → Option FsEntry) : Nat × List Event :=
  if env.toplevelRc ≠ 0 then (env.toplevelRc, [Event.revParse])
  else if pyStrip env.toplevelOut = "" then (1, [Event.revParse])
  else if cfg.files.any is_forbidden_path then (1, [Event.revParse])
  else
    let norm := normalize_files cfg.files fs
    let evs0 := Event.revParse :: norm.2.2 ++ [Event.diffCheck]
    if env.diffCheckRc ≠ 0 ∨ pyStrip env.diffCheckOut ≠ "" then (2, evs0)
    else
      let evs1 := evs0 ++ [Event.gitAdd]
      if env.addRc ≠ 0 then (env.addRc, evs1)
      else
        let evs2 := evs1 ++ [Event.stagedQuery]
        if env.stagedRc ≠ 0 then (env.stagedRc, evs2)
        else
          let staged := splitlinesStr env.stagedOut
          if staged = [] then (0, evs2)
          else if staged.filter is_forbidden_path ≠ [] then (3, evs2)
          else if cfg.dryRun then
            let evs3 := evs2 ++ [Event.gitStatus]
            if env.statusRc ≠ 0 then (env.statusRc, evs3) else (0, evs3)
          else if pyStrip cfg.message = "" then (4, evs2)
          else
            let evs4 := evs2 ++ [Event.gitCommit]
            if env.commitRc ≠ 0 then (env.commitRc, evs4)
            else
              let evs5 := evs4 ++ [Event.branchQuery]
              if env.branchRc ≠ 0 then (env.branchRc, evs5)
              else if pyStrip env.branchOut = "" then (5, evs5)
              else
                let evs6 := evs5 ++ [Event.gitPush]
                if env.pushRc ≠ 0 then (env.pushRc, evs6) else (0, evs6)

/-- Two adjacent values `a, b` occur somewhere in `l` (used for the
carriage-return/line-feed byte pair and for whitespace-before-LF). -/
def pairAt (a b : Nat) (l : List Nat) : Prop := ∃ x y, l = x ++ a :: b :: y

/-- Space or tab. -/
def isWs2 (c : Nat) : Bool := c == 32 || c == 9

/-- No space/tab immediately followed by a line feed. -/
def noWsLF (l : List Nat) : Prop := ∀ w, isWs2 w = true → ¬ pairAt w 10 l

/-- The last element, if any, is not space/tab. -/
def lastNotWs2 (l : List Nat) : Prop := ∀ w, l.getLast? = some w → isWs2 w = false

/-- Content that the cleaning loop leaves untouched: no carriage
returns, no space/tab before a line feed, no trailing space/tab. -/
def CleanPred (l : List Nat) : Prop := 13 ∉ l ∧ noWsLF l ∧ lastNotWs2 l

/-- No `splitlines` boundary occurs in `l`. -/
def noBoundaryL (l : List Nat) : Prop := ∀ c ∈ l, isBoundary c = false

/-- Executable check that no space/tab immediately precedes a LF. -/
def noWsLFb : List Nat → Bool
  | a :: b :: rest => !(isWs2 a && b == 10) && noWsLFb (b :: rest)
  | _ => true

/-- Executable check that the last element, if any, is not space/tab. -/
def lastNotWs2b (l : List Nat) : Bool :=
  match l.getLast? with
  | some w => !(isWs2 w)
  | none => true

/-- The normalized bytes a run of `normalize_text_file` leaves at a path
holding `raw` (the file itself when it is skipped as non-UTF-8). -/
def normBytes (raw : List Nat) : List Nat :=
  match cleanBytes raw with
  | some c => c
  | none => raw

/-- Exit status `code` is the passthrough of some failing
`check=True` external command of the run. -/
def PassThru (env : GitEnv) (code : Nat) : Prop :=
  (code = env.toplevelRc ∧ env.toplevelRc ≠ 0) ∨
  (code = env.addRc ∧ env.addRc ≠ 0) ∨
  (code = env.stagedRc ∧ env.stagedRc ≠ 0) ∨
  (code = env.statusRc ∧ env.statusRc ≠ 0) ∨
  (code = env.commitRc ∧ env.commitRc ≠ 0) ∨
  (code = env.branchRc ∧ env.branchRc ≠ 0) ∨
  (code = env.pushRc ∧ env.pushRc ≠ 0)

/-- Claim C1 as stated: every exit status is 0, 2, 3, 4, 5, or the
passthrough of a failing external command. -/
def ClaimC1 : Prop :=
  ∀ cfg env fs,
    (main cfg env fs).1 = 0 ∨ (main cfg env fs).1 = 2 ∨ (main cfg env fs).1 = 3 ∨
    (main cfg env fs).1 = 4 ∨ (main cfg env fs).1 = 5 ∨ PassThru env (main cfg env fs).1

/-- Claim C2 as stated: a file containing a CRLF pair has, after
normalization, no CRLF pair left and an unchanged final-terminator
state. -/
def ClaimC2 : Prop :=
  ∀ raw e', pairAt 13 10 raw →
    (normalize_text_file (some ⟨true, raw⟩)).2 = some e' →
    ¬ pairAt 13 10 e'.bytes ∧ (e'.bytes.getLast? = some 10 ↔ raw.getLast? = some 10)

/-- Claim C4 as stated: with the dry-run flag set, commit and push are
never invoked while normalization and staging still occur. -/
def ClaimC4 : Prop :=
  ∀ cfg env fs, cfg.dryRun = true →
    Event.gitCommit ∉ (main cfg env fs).2 ∧ Event.gitPush ∉ (main cfg env fs).2 ∧
    (∀ e ∈ (normalize_files cfg.files fs).2.2, e ∈ (main cfg env fs).2) ∧
    Event.gitAdd ∈ (main cfg env fs).2

/-- A git environment in which every external command succeeds. -/
def envOK : GitEnv :=
  { toplevelRc := 0, toplevelOut := "/repo\n", diffCheckRc := 0, diffCheckOut := "",
    addRc := 0, stagedRc := 0, stagedOut := "a.txt\n", statusRc := 0,
    commitRc := 0, branchRc := 0, branchOut := "main\n", pushRc := 0 }

/-- The configuration of a plain `python3 scripts/commit_and_push.py`. -/
def cfgDefault : Config :=
  { files := FILES_TO_STAGE, message := DEFAULT_MESSAGE, dryRun := false }

/-- A filesystem with no entries at all. -/
def fsEmpty : String → Option FsEntry := fun _ => none

theorem normalize_files_events_kinds (ps : List String) :
    ∀ (fs : String → Option FsEntry) (e : Event),
      e ∈ (normalize_files ps fs).2.2 →
      (∃ q, e = Event.fileRead q) ∨ (∃ q, e = Event.fileWrite q) := by
  induction ps with
  | nil => intro fs e h; simp [normalize_files] at h
  | cons p ps ih =>
    intro fs e h
    simp only [normalize_files, List.mem_append] at h
    rcases h with h | h
    · rcases hfs : fs p with _ | entry <;> rw [hfs] at h
      · simp at h
      · by_cases hf : entry.isFile <;> simp [hf] at h
        rcases h with h | ⟨-, h⟩
        · exact Or.inl ⟨p, h⟩
        · exact Or.inr ⟨p, h⟩
    · exact ih _ _ h

theorem gitCommit_not_norm (ps : List String) (fs : String → Option FsEntry) :
    Event.gitCommit ∉ (normalize_files ps fs).2.2 := by
  intro h
  rcases normalize_files_events_kinds ps fs _ h with ⟨q, hq⟩ | ⟨q, hq⟩ <;> simp at hq

theorem gitPush_not_norm (ps : List String) (fs : String → Option FsEntry) :
    Event.gitPush ∉ (normalize_files ps fs).2.2 := by
  intro h
  rcases normalize_files_events_kinds ps fs _ h with ⟨q, hq⟩ | ⟨q, hq⟩ <;> simp at hq

/-- C3: whenever some path of the allowlist matches a forbidden path
rule, the run terminates with a non-zero status and no file on disk is
read or written (normalization never starts). -/
theorem C3_forbidden_allowlist_aborts_before_norm (cfg : Config) (env : GitEnv)
    (fs : String → Option FsEntry) (h : cfg.files.any is_forbidden_path = true) :
    (main cfg env fs).1 ≠ 0 ∧
      ∀ p, Event.fileRead p ∉ (main cfg env fs).2 ∧
        Event.fileWrite p ∉ (main cfg env fs).2 := by
  unfold main
  by_cases h1 : env.toplevelRc ≠ 0
  · simp [h1]
  · by_cases h2 : pyStrip env.toplevelOut = "" <;> simp [h1, h2, h]

/-- C3 witness: a concrete run whose allowlist contains `".env"`. -/
theorem C3_witness :
    (Config.mk [".env"] "msg" false).files.any is_forbidden_path = true ∧
      ((main (Config.mk [".env"] "msg" false) envOK fsEmpty).1 ≠ 0 ∧
        ∀ p, Event.fileRead p ∉ (main (Config.mk [".env"] "msg" false) envOK fsEmpty).2 ∧
          Event.fileWrite p ∉ (main (Config.mk [".env"] "msg" false) envOK fsEmpty).2) :=
  ⟨by decide,
   C3_forbidden_allowlist_aborts_before_norm (Config.mk [".env"] "msg" false) envOK fsEmpty
     (by decide)⟩

/-- C5: when the staged-name query returns an empty list, the run exits
with status 0 and neither commit nor push is invoked. -/
theorem C5_nothing_staged_exits_zero (cfg : Config) (env : GitEnv)
    (fs : String → Option FsEntry)
    (h1 : env.toplevelRc = 0) (h2 : pyStrip env.toplevelOut ≠ "")
    (h3 : cfg.files.any is_forbidden_path = false)
    (h4 : env.diffCheckRc = 0) (h5 : pyStrip env.diffCheckOut = "")
    (h6 : env.addRc = 0) (h7 : env.stagedRc = 0)
    (h8 : splitlinesStr env.stagedOut = []) :
    (main cfg env fs).1 = 0 ∧ Event.gitCommit ∉ (main cfg env fs).2 ∧
      Event.gitPush ∉ (main cfg env fs).2 := by
  unfold main
  simp [h1, h2, h3, h4, h5, h6, h7, h8, gitCommit_not_norm, gitPush_not_norm]

/-- C5 witness: a concrete run in which `git diff --name-only --cached`
prints nothing. -/
theorem C5_witness :
    splitlinesStr (GitEnv.stagedOut { envOK with stagedOut := "" }) = [] ∧
      ((main cfgDefault { envOK with stagedOut := "" } fsEmpty).1 = 0 ∧
        Event.gitCommit ∉ (main cfgDefault { envOK with stagedOut := "" } fsEmpty).2 ∧
        Event.gitPush ∉ (main cfgDefault { envOK with stagedOut := "" } fsEmpty).2) :=
  ⟨by decide,
   C5_nothing_staged_exits_zero cfgDefault { envOK with stagedOut := "" } fsEmpty
     (by decide) (by decide) (by decide) (by decide) (by decide) (by decide) (by decide)
     (by decide)⟩

/-- C6: in non-dry-run mode, with changes staged and none of them
forbidden, a commit message that trims to empty makes the run exit with
status 4 without invoking commit. -/
theorem C6_empty_message_exits_four (cfg : Config) (env : GitEnv)
    (fs : String → Option FsEntry)
    (h1 : env.toplevelRc = 0) (h2 : pyStrip env.toplevelOut ≠ "")
    (h3 : cfg.files.any is_forbidden_path = false)
    (h4 : env.diffCheckRc = 0) (h5 : pyStrip env.diffCheckOut = "")
    (h6 : env.addRc = 0) (h7 : env.stagedRc = 0)
    (h8 : splitlinesStr env.stagedOut ≠ [])
    (h9 : (splitlinesStr env.stagedOut).filter is_forbidden_path = [])
    (h10 : cfg.dryRun = false) (h11 : pyStrip cfg.message = "") :
    (main cfg env fs).1 = 4 ∧ Event.gitCommit ∉ (main cfg env fs).2 := by
  unfold main
  simp [h1, h2, h3, h4, h5, h6, h7, h8, h9, h10, h11, gitCommit_not_norm]

/-- C6 witness: message `"   "` with `a.txt` staged. -/
theorem C6_witness :
    pyStrip (Config.mk FILES_TO_STAGE "   " false).message = "" ∧
      splitlinesStr envOK.stagedOut ≠ [] ∧
      ((main (Config.mk FILES_TO_STAGE "   " false) envOK fsEmpty).1 = 4 ∧
        Event.gitCommit ∉ (main (Config.mk FILES_TO_STAGE "   " false) envOK fsEmpty).2) :=
  ⟨by decide, by decide,
   C6_empty_message_exits_four (Config.mk FILES_TO_STAGE "   " false) envOK fsEmpty
     (by decide) (by decide) (by decide) (by decide) (by decide) (by decide) (by decide)
     (by decide) (by decide) (by decide) (by decide)⟩

/-- C10: with the dry-run flag set the run never reaches message
validation: staged changes plus a whitespace-only message still exit
with status 0 (not 4), since the dry-run short-circuit comes first. -/
theorem C10_dry_run_skips_message_check (cfg : Config) (env : GitEnv)
    (fs : String → Option FsEntry)
    (h1 : env.toplevelRc = 0) (h2 : pyStrip env.toplevelOut ≠ "")
    (h3 : cfg.files.any is_forbidden_path = false)
    (h4 : env.diffCheckRc = 0) (h5 : pyStrip env.diffCheckOut = "")
    (h6 : env.addRc = 0) (h7 : env.stagedRc = 0)
    (h8 : splitlinesStr env.stagedOut ≠ [])
    (h9 : (splitlinesStr env.stagedOut).filter is_forbidden_path = [])
    (h10 : cfg.dryRun = true) (h11 : pyStrip cfg.message = "")
    (h12 : env.statusRc = 0) :
    (main cfg env fs).1 = 0 := by
  unfold main
  simp [h1, h2, h3, h4, h5, h6, h7, h8, h9, h10, h12]

/-- C10 witness: dry run with message `"   "` and `a.txt` staged. -/
theorem C10_witness :
    (Config.mk FILES_TO_STAGE "   " true).dryRun = true ∧
      pyStrip (Config.mk FILES_TO_STAGE "   " true).message = "" ∧
      splitlinesStr envOK.stagedOut ≠ [] ∧
      (main (Config.mk FILES_TO_STAGE "   " true) envOK fsEmpty).1 = 0 :=
  ⟨by decide, by decide, by decide,
   C10_dry_run_skips_message_check (Config.mk FILES_TO_STAGE "   " true) envOK fsEmpty
     (by decide) (by decide) (by decide) (by decide) (by decide) (by decide) (by decide)
     (by decide) (by decide) (by decide) (by decide) (by decide)⟩

/-- C4 counterexample: in a dry run whose `git diff --check` reports
output, the run exits before staging, so `git add` is never invoked and
the "staging still occurs" part of the claim fails. -/
theorem C4_counterexample : ¬ ClaimC4 := by
  intro h
  have h2 := h (Config.mk FILES_TO_STAGE DEFAULT_MESSAGE true)
    { envOK with diffCheckOut := "x.ts:1: trailing whitespace." } fsEmpty rfl
  have h3 : (main (Config.mk FILES_TO_STAGE DEFAULT_MESSAGE true)
      { envOK with diffCheckOut := "x.ts:1: trailing whitespace." } fsEmpty).2 =
      [Event.revParse, Event.diffCheck] := by decide
  rw [h3] at h2
  simp at h2

/-- C4 as amended: with the dry-run flag set, commit and push are never
invoked under any circumstances; normalization and staging are not
skipped by the flag — they do occur whenever the run passes the earlier
gates (repository resolved, allowlist clean, whitespace check clean) —
and reaching the dry-run short-circuit yields exit status 0. -/
theorem C4_amended_dry_run (cfg : Config) (env : GitEnv)
    (fs : String → Option FsEntry) (hdry : cfg.dryRun = true) :
    (Event.gitCommit ∉ (main cfg env fs).2 ∧ Event.gitPush ∉ (main cfg env fs).2) ∧
      (env.toplevelRc = 0 → pyStrip env.toplevelOut ≠ "" →
        cfg.files.any is_forbidden_path = false →
        env.diffCheckRc = 0 → pyStrip env.diffCheckOut = "" →
        (Event.gitAdd ∈ (main cfg env fs).2 ∧
          ∀ e ∈ (normalize_files cfg.files fs).2.2, e ∈ (main cfg env fs).2) ∧
        (env.addRc = 0 → env.stagedRc = 0 → splitlinesStr env.stagedOut ≠ [] →
          (splitlinesStr env.stagedOut).filter is_forbidden_path = [] →
          env.statusRc = 0 → (main cfg env fs).1 = 0)) := by
  constructor
  · unfold main
    by_cases h1 : env.toplevelRc ≠ 0
    · simp [h1]
    · by_cases h2 : pyStrip env.toplevelOut = ""
      · simp [h1, h2]
      · by_cases h3 : cfg.files.any is_forbidden_path
        · simp [h1, h2, h3]
        · by_cases h4 : env.diffCheckRc ≠ 0 ∨ pyStrip env.diffCheckOut ≠ ""
          · simp [h1, h2, h3, h4, gitCommit_not_norm, gitPush_not_norm]
          · by_cases h5 : env.addRc ≠ 0
            · simp [h1, h2, h3, h4, h5, gitCommit_not_norm, gitPush_not_norm]
            · by_cases h6 : env.stagedRc ≠ 0
              · simp [h1, h2, h3, h4, h5, h6, gitCommit_not_norm, gitPush_not_norm]
              · by_cases h7 : splitlinesStr env.stagedOut = []
                · simp [h1, h2, h3, h4, h5, h6, h7, gitCommit_not_norm, gitPush_not_norm]
                · by_cases h8 : (splitlinesStr env.stagedOut).filter is_forbidden_path = []
                  · by_cases h9 : env.statusRc = 0 <;>
                      simp [h1, h2, h3, h4, h5, h6, h7, h8, h9, hdry,
                        gitCommit_not_norm, gitPush_not_norm]
                  · simp [h1, h2, h3, h4, h5, h6, h7, h8,
                      gitCommit_not_norm, gitPush_not_norm]
  · intro g1 g2 g3 g4 g5
    constructor
    · unfold main
      have g45 : ¬(env.diffCheckRc ≠ 0 ∨ pyStrip env.diffCheckOut ≠ "") := by
        simp [g4, g5]
      by_cases h5 : env.addRc ≠ 0
      · simp [g1, g2, g3, g45, h5]
        exact fun e he => Or.inr (Or.inl he)
      · by_cases h6 : env.stagedRc ≠ 0
        · simp [g1, g2, g3, g45, h5, h6]
          exact fun e he => Or.inr (Or.inl he)
        · by_cases h7 : splitlinesStr env.stagedOut = []
          · simp [g1, g2, g3, g45, h5, h6, h7]
            exact fun e he => Or.inr (Or.inl he)
          · by_cases h8 : (splitlinesStr env.stagedOut).filter is_forbidden_path = []
            · by_cases h9 : env.statusRc = 0 <;>
                [skip; skip] <;> simp [g1, g2, g3, g45, h5, h6, h7, h8, h9, hdry] <;>
                exact fun e he => Or.inr (Or.inl he)
            · simp [g1, g2, g3, g45, h5, h6, h7, h8]
              exact fun e he => Or.inr (Or.inl he)
    · intro g6 g7 g8 g9 g10
      unfold main
      simp [g1, g2, g3, g4, g5, g6, g7, g8, g9, g10, hdry]

/-- C4 amended witness: a fully successful dry run. -/
theorem C4_amended_witness :
    (Config.mk FILES_TO_STAGE DEFAULT_MESSAGE true).dryRun = true ∧
      ((Event.gitCommit ∉
          (main (Config.mk FILES_TO_STAGE DEFAULT_MESSAGE true) envOK fsEmpty).2 ∧
        Event.gitPush ∉
          (main (Config.mk FILES_TO_STAGE DEFAULT_MESSAGE true) envOK fsEmpty).2) ∧
       (envOK.toplevelRc = 0 → pyStrip envOK.toplevelOut ≠ "" →
        (Config.mk FILES_TO_STAGE DEFAULT_MESSAGE true).files.any is_forbidden_path = false →
        envOK.diffCheckRc = 0 → pyStrip envOK.diffCheckOut = "" →
        (Event.gitAdd ∈ (main (Config.mk FILES_TO_STAGE DEFAULT_MESSAGE true) envOK fsEmpty).2 ∧
          ∀ e ∈ (normalize_files (Config.mk FILES_TO_STAGE DEFAULT_MESSAGE true).files fsEmpty).2.2,
            e ∈ (main (Config.mk FILES_TO_STAGE DEFAULT_MESSAGE true) envOK fsEmpty).2) ∧
        (envOK.addRc = 0 → envOK.stagedRc = 0 → splitlinesStr envOK.stagedOut ≠ [] →
          (splitlinesStr envOK.stagedOut).filter is_forbidden_path = [] →
          envOK.statusRc = 0 →
          (main (Config.mk FILES_TO_STAGE DEFAULT_MESSAGE true) envOK fsEmpty).1 = 0))) :=
  ⟨rfl, C4_amended_dry_run (Config.mk FILES_TO_STAGE DEFAULT_MESSAGE true) envOK fsEmpty rfl⟩

/-- C1 counterexample: when `git rev-parse --show-toplevel` succeeds
with empty output, the run exits with status 1, which is none of the
enumerated codes and not the status of any failing external command
(every command succeeded). -/
theorem C1_counterexample : ¬ ClaimC1 := by
  intro h
  have h2 := h cfgDefault { envOK with toplevelOut := "" } fsEmpty
  rw [show (main cfgDefault { envOK with toplevelOut := "" } fsEmpty).1 = 1 from by decide]
    at h2
  simp [PassThru, envOK] at h2

/-- C1 as amended: every exit status is 0; or 1 because the resolved
repository toplevel was empty or the static allowlist contained a
forbidden path (a `SystemExit` with a message); or 2 (whitespace check),
3 (forbidden staged file), 4 (empty message), 5 (undetermined branch);
or the passthrough of the failing external command's own status. -/
theorem C1_amended_exit_codes (cfg : Config) (env : GitEnv)
    (fs : String → Option FsEntry) :
    (main cfg env fs).1 = 0 ∨
      ((main cfg env fs).1 = 1 ∧
        (pyStrip env.toplevelOut = "" ∨ cfg.files.any is_forbidden_path = true)) ∨
      (main cfg env fs).1 = 2 ∨ (main cfg env fs).1 = 3 ∨
      (main cfg env fs).1 = 4 ∨ (main cfg env fs).1 = 5 ∨
      PassThru env (main cfg env fs).1 := by
  by_cases h1 : env.toplevelRc ≠ 0
  · have hm : (main cfg env fs).1 = env.toplevelRc := by unfold main; simp [h1]
    rw [hm]
    exact Or.inr (Or.inr (Or.inr (Or.inr (Or.inr (Or.inr (Or.inl ⟨rfl, h1⟩))))))
  · by_cases h2 : pyStrip env.toplevelOut = ""
    · have hm : (main cfg env fs).1 = 1 := by unfold main; simp [h1, h2]
      rw [hm]
      exact Or.inr (Or.inl ⟨rfl, Or.inl h2⟩)
    · by_cases h3 : cfg.files.any is_forbidden_path
      · have hm : (main cfg env fs).1 = 1 := by unfold main; simp [h1, h2, h3]
        rw [hm]
        exact Or.inr (Or.inl ⟨rfl, Or.inr h3⟩)
      · by_cases h4 : env.diffCheckRc ≠ 0 ∨ pyStrip env.diffCheckOut ≠ ""
        · have hm : (main cfg env fs).1 = 2 := by unfold main; simp [h1, h2, h3, h4]
          rw [hm]; tauto
        · by_cases h5 : env.addRc ≠ 0
          · have hm : (main cfg env fs).1 = env.addRc := by
              unfold main; simp [h1, h2, h3, h4, h5]
            rw [hm]
            exact Or.inr (Or.inr (Or.inr (Or.inr (Or.inr (Or.inr
              (Or.inr (Or.inl ⟨rfl, h5⟩)))))))
          · by_cases h6 : env.stagedRc ≠ 0
            · have hm : (main cfg env fs).1 = env.stagedRc := by
                unfold main; simp [h1, h2, h3, h4, h5, h6]
              rw [hm]
              exact Or.inr (Or.inr (Or.inr (Or.inr (Or.inr (Or.inr
                (Or.inr (Or.inr (Or.inl ⟨rfl, h6⟩))))))))
            · by_cases h7 : splitlinesStr env.stagedOut = []
              · have hm : (main cfg env fs).1 = 0 := by
                  unfold main; simp [h1, h2, h3, h4, h5, h6, h7]
                rw [hm]; tauto
              · by_cases h8 : (splitlinesStr env.stagedOut).filter is_forbidden_path = []
                · by_cases h9 : cfg.dryRun
                  · by_cases h10 : env.statusRc ≠ 0
                    · have hm : (main cfg env fs).1 = env.statusRc := by
                        unfold main; simp [h1, h2, h3, h4, h5, h6, h7, h8, h9, h10]
                      rw [hm]
                      exact Or.inr (Or.inr (Or.inr (Or.inr (Or.inr (Or.inr
                        (Or.inr (Or.inr (Or.inr (Or.inl ⟨rfl, h10⟩)))))))))
                    · have hm : (main cfg env fs).1 = 0 := by
                        unfold main; simp [h1, h2, h3, h4, h5, h6, h7, h8, h9, h10]
                      rw [hm]; tauto
                  · by_cases h11 : pyStrip cfg.message = ""
                    · have hm : (main cfg env fs).1 = 4 := by
                        unfold main; simp [h1, h2, h3, h4, h5, h6, h7, h8, h9, h11]
                      rw [hm]; tauto
                    · by_cases h12 : env.commitRc ≠ 0
                      · have hm : (main cfg env fs).1 = env.commitRc := by
                          unfold main; simp [h1, h2, h3, h4, h5, h6, h7, h8, h9, h11, h12]
                        rw [hm]
                        exact Or.inr (Or.inr (Or.inr (Or.inr (Or.inr (Or.inr
                          (Or.inr (Or.inr (Or.inr (Or.inr
                            (Or.inl ⟨rfl, h12⟩))))))))))
                      · by_cases h13 : env.branchRc ≠ 0
                        · have hm : (main cfg env fs).1 = env.branchRc := by
                            unfold main
                            simp [h1, h2, h3, h4, h5, h6, h7, h8, h9, h11, h12, h13]
                          rw [hm]
                          exact Or.inr (Or.inr (Or.inr (Or.inr (Or.inr (Or.inr
                            (Or.inr (Or.inr (Or.inr (Or.inr (Or.inr
                              (Or.inl ⟨rfl, h13⟩)))))))))))
                        · by_cases h14 : pyStrip env.branchOut = ""
                          · have hm : (main cfg env fs).1 = 5 := by
                              unfold main
                              simp [h1, h2, h3, h4, h5, h6, h7, h8, h9, h11, h12, h13, h14]
                            rw [hm]; tauto
                          · by_cases h15 : env.pushRc ≠ 0
                            · have hm : (main cfg env fs).1 = env.pushRc := by
                                unfold main
                                simp [h1, h2, h3, h4, h5, h6, h7, h8, h9, h11, h12, h13,
                                  h14, h15]
                              rw [hm]
                              exact Or.inr (Or.inr (Or.inr (Or.inr (Or.inr (Or.inr
                                (Or.inr (Or.inr (Or.inr (Or.inr (Or.inr (Or.inr
                                  ⟨rfl, h15⟩)))))))))))
                            · have hm : (main cfg env fs).1 = 0 := by
                                unfold main
                                simp [h1, h2, h3, h4, h5, h6, h7, h8, h9, h11, h12, h13,
                                  h14, h15]
                              rw [hm]; tauto
                · have hm : (main cfg env fs).1 = 3 := by
                    unfold main; simp [h1, h2, h3, h4, h5, h6, h7, h8]
                  rw [hm]; tauto

theorem takeLine_crlf (rest : List Nat) : takeLine (13 :: 10 :: rest) = ([13, 10], rest) :=
  rfl

theorem takeLine_cr_nil : takeLine [13] = ([13], []) := rfl

theorem takeLine_cr (d : Nat) (rest : List Nat) (hd : d ≠ 10) :
    takeLine (13 :: d :: rest) = ([13], d :: rest) := by
  rw [takeLine.eq_def]
  split
  · rename_i heq
    exact absurd heq (by simp)
  · rename_i c rest' heq
    injection heq with hc hrest
    subst hc
    subst hrest
    rw [if_pos rfl]
    split
    · rename_i rest2 heq2
      injection heq2 with h1 h2
      exact absurd h1 hd
    · rfl

theorem takeLine_bnd (c : Nat) (rest : List Nat) (hc : c ≠ 13) (hb : isBoundary c = true) :
    takeLine (c :: rest) = ([c], rest) := by
  rw [takeLine.eq_def]
  simp [hc, hb]

theorem takeLine_other (c : Nat) (rest : List Nat) (hc : c ≠ 13) (hb : isBoundary c = false) :
    takeLine (c :: rest) = (c :: (takeLine rest).1, (takeLine rest).2) := by
  rw [takeLine.eq_def]
  simp [hc, hb]

theorem takeLine_append : ∀ l : List Nat, (takeLine l).1 ++ (takeLine l).2 = l := by
  intro l
  induction l with
  | nil => rfl
  | cons c rest ih =>
    by_cases hc : c = 13
    · subst hc
      cases rest with
      | nil => rfl
      | cons d rest2 =>
        by_cases hd : d = 10
        · subst hd; rw [takeLine_crlf]; rfl
        · rw [takeLine_cr d rest2 hd]; rfl
    · by_cases hb : isBoundary c
      · rw [takeLine_bnd c rest hc hb]; rfl
      · rw [takeLine_other c rest hc (by simpa using hb)]
        simpa using ih

theorem takeLine_fst_ne_nil : ∀ (c : Nat) (rest : List Nat), (takeLine (c :: rest)).1 ≠ [] := by
  intro c rest
  by_cases hc : c = 13
  · subst hc
    cases rest with
    | nil => simp [takeLine_cr_nil]
    | cons d rest2 =>
      by_cases hd : d = 10
      · subst hd; simp [takeLine_crlf]
      · simp [takeLine_cr d rest2 hd]
  · by_cases hb : isBoundary c
    · simp [takeLine_bnd c rest hc hb]
    · simp [takeLine_other c rest hc (by simpa using hb)]

theorem takeLine_snd_lt : ∀ l : List Nat, l ≠ [] → (takeLine l).2.length < l.length := by
  intro l
  induction l with
  | nil => intro h; exact absurd rfl h
  | cons c rest ih =>
    intro _
    by_cases hc : c = 13
    · subst hc
      cases rest with
      | nil => simp [takeLine_cr_nil]
      | cons d rest2 =>
        by_cases hd : d = 10
        · subst hd; rw [takeLine_crlf]; simp only [List.length_cons]; omega
        · rw [takeLine_cr d rest2 hd]; simp only [List.length_cons]; omega
    · by_cases hb : isBoundary c
      · rw [takeLine_bnd c rest hc hb]; simp
      · rw [takeLine_other c rest hc (by simpa using hb)]
        cases rest with
        | nil => simp [takeLine]
        | cons d r2 =>
          have h2 := ih (by simp)
          simp only [List.length_cons] at h2 ⊢
          omega

theorem splitGo_fuel : ∀ (n m : Nat) (l : List Nat),
    l.length ≤ n → l.length ≤ m → splitGo n l = splitGo m l := by
  intro n
  induction n with
  | zero =>
    intro m l hn _
    have h0 : l = [] := List.eq_nil_of_length_eq_zero (Nat.le_zero.mp hn)
    subst h0; cases m <;> rfl
  | succ n ih =>
    intro m l hn hm
    cases l with
    | nil => cases m <;> rfl
    | cons c rest =>
      cases m with
      | zero => simp at hm
      | succ m =>
        simp only [splitGo]
        congr 1
        have hlt := takeLine_snd_lt (c :: rest) (by simp)
        simp only [List.length_cons] at hn hm hlt
        exact ih m _ (by omega) (by omega)

theorem splitlines_cons (c : Nat) (rest : List Nat) :
    splitlines (c :: rest) =
      (takeLine (c :: rest)).1 :: splitlines ((takeLine (c :: rest)).2) := by
  unfold splitlines
  simp only [List.length_cons, splitGo]
  congr 1
  have hlt := takeLine_snd_lt (c :: rest) (by simp)
  simp only [List.length_cons] at hlt
  exact splitGo_fuel _ _ _ (by omega) le_rfl

theorem splitlines_flatten_aux :
    ∀ (n : Nat) (l : List Nat), l.length ≤ n → (splitlines l).flatten = l := by
  intro n
  induction n with
  | zero =>
    intro l h
    have h0 : l = [] := List.eq_nil_of_length_eq_zero (Nat.le_zero.mp h)
    subst h0; rfl
  | succ n ih =>
    intro l h
    cases l with
    | nil => rfl
    | cons c rest =>
      rw [splitlines_cons]
      have hlt := takeLine_snd_lt (c :: rest) (by simp)
      simp only [List.length_cons] at h hlt
      rw [List.flatten_cons, ih _ (by omega)]
      exact takeLine_append _

theorem splitlines_flatten (l : List Nat) : (splitlines l).flatten = l :=
  splitlines_flatten_aux l.length l le_rfl

theorem splitlines_sub (cps ln : List Nat) (x : Nat)
    (h : ln ∈ splitlines cps) (hx : x ∈ ln) : x ∈ cps := by
  rw [← splitlines_flatten cps]
  exact List.mem_flatten.mpr ⟨ln, h, hx⟩

theorem takeLine_shape : ∀ (rest : List Nat) (c : Nat),
    ∃ body : List Nat, (∀ x ∈ body, isBoundary x = false) ∧
      ((takeLine (c :: rest)).1 = body ++ [13, 10] ∨
       (∃ b, isBoundary b = true ∧ (takeLine (c :: rest)).1 = body ++ [b]) ∨
       ((takeLine (c :: rest)).1 = body ∧ body ≠ [] ∧ (takeLine (c :: rest)).2 = [])) := by
  intro rest
  induction rest with
  | nil =>
    intro c
    by_cases hc : c = 13
    · subst hc
      exact ⟨[], by simp, Or.inr (Or.inl ⟨13, rfl, by simp [takeLine_cr_nil]⟩)⟩
    · by_cases hb : isBoundary c
      · exact ⟨[], by simp, Or.inr (Or.inl ⟨c, hb, by simp [takeLine_bnd c [] hc hb]⟩)⟩
      · refine ⟨[c], ?_, Or.inr (Or.inr ?_)⟩
        · intro x hx
          rw [List.mem_singleton] at hx
          subst hx; simpa using hb
        · rw [takeLine_other c [] hc (by simpa using hb)]
          simp [takeLine]
  | cons d r2 ih =>
    intro c
    by_cases hc : c = 13
    · subst hc
      by_cases hd : d = 10
      · subst hd
        exact ⟨[], by simp, Or.inl (by simp [takeLine_crlf])⟩
      · exact ⟨[], by simp, Or.inr (Or.inl ⟨13, by simp [isBoundary],
          by simp [takeLine_cr d r2 hd]⟩)⟩
    · by_cases hb : isBoundary c
      · exact ⟨[], by simp, Or.inr (Or.inl ⟨c, hb, by simp [takeLine_bnd c (d :: r2) hc hb]⟩)⟩
      · rcases ih d with ⟨body, hbody, hcase⟩
        refine ⟨c :: body, ?_, ?_⟩
        · intro x hx
          rcases List.mem_cons.mp hx with h | h
          · subst h; simpa using hb
          · exact hbody x h
        · rw [takeLine_other c (d :: r2) hc (by simpa using hb)]
          rcases hcase with h | ⟨b, hb2, h⟩ | ⟨h1, h2, h3⟩
          · exact Or.inl (by simp [h])
          · exact Or.inr (Or.inl ⟨b, hb2, by simp [h]⟩)
          · exact Or.inr (Or.inr ⟨by simp [h1], by simp, by simp [h3]⟩)

theorem rstrip_sub (l : List Nat) (a : Nat) (h : a ∈ rstrip l) : a ∈ l := by
  unfold rstrip at h
  rw [List.mem_reverse] at h
  have hs := List.dropWhile_suffix (l := l.reverse) isStripWs
  rw [← List.mem_reverse]
  exact hs.subset h

theorem head_dropWhile_false (p : Nat → Bool) :
    ∀ (l : List Nat) (w : Nat), (l.dropWhile p).head? = some w → p w = false := by
  intro l
  induction l with
  | nil => intro w h; simp at h
  | cons a l ih =>
    intro w h
    rw [List.dropWhile_cons] at h
    by_cases hp : p a
    · rw [if_pos hp] at h
      exact ih w h
    · rw [if_neg hp] at h
      simp only [List.head?_cons, Option.some.injEq] at h
      subst h
      simpa using hp

theorem rstrip_last (l : List Nat) (w : Nat)
    (h : (rstrip l).getLast? = some w) : isStripWs w = false := by
  unfold rstrip at h
  rw [List.getLast?_reverse] at h
  exact head_dropWhile_false isStripWs l.reverse w h

theorem rstrip_append_ws (l : List Nat) (a : Nat) (ha : isStripWs a = true) :
    rstrip (l ++ [a]) = rstrip l := by
  unfold rstrip
  rw [List.reverse_append]
  simp [List.dropWhile_cons, ha]

theorem rstrip_append_nws (l : List Nat) (a : Nat) (ha : isStripWs a = false) :
    rstrip (l ++ [a]) = l ++ [a] := by
  unfold rstrip
  rw [List.reverse_append]
  simp [List.dropWhile_cons, ha]

theorem rstrip_eq_self (l : List Nat)
    (h : ∀ w, l.getLast? = some w → isStripWs w = false) : rstrip l = l := by
  rcases List.eq_nil_or_concat l with h0 | ⟨L, b, h0⟩
  · subst h0; rfl
  · rw [List.concat_eq_append] at h0
    subst h0
    exact rstrip_append_nws L b (h b (List.getLast?_concat L))

theorem rstrip_nil : rstrip [] = [] := rfl

theorem pairAt_consR (a b c : Nat) (l : List Nat) (h : pairAt a b l) :
    pairAt a b (c :: l) := by
  rcases h with ⟨x, y, rfl⟩
  exact ⟨c :: x, y, rfl⟩

theorem pairAt_appendL (a b : Nat) (X Y : List Nat) (h : pairAt a b X) :
    pairAt a b (X ++ Y) := by
  rcases h with ⟨x, y, rfl⟩
  exact ⟨x, y ++ Y, by simp⟩

theorem pairAt_appendR (a b : Nat) (X Y : List Nat) (h : pairAt a b Y) :
    pairAt a b (X ++ Y) := by
  rcases h with ⟨x, y, rfl⟩
  exact ⟨X ++ x, y, by simp⟩

theorem pairAt_memL (a b : Nat) (l : List Nat) (h : pairAt a b l) : a ∈ l := by
  rcases h with ⟨x, y, rfl⟩
  simp

theorem pairAt_memR (a b : Nat) (l : List Nat) (h : pairAt a b l) : b ∈ l := by
  rcases h with ⟨x, y, rfl⟩
  simp

theorem pairAt_split (a b : Nat) : ∀ (X Y : List Nat), pairAt a b (X ++ Y) →
    pairAt a b X ∨ pairAt a b Y ∨ (X.getLast? = some a ∧ Y.head? = some b) := by
  intro X
  induction X with
  | nil => intro Y h; exact Or.inr (Or.inl (by simpa using h))
  | cons x X ih =>
    intro Y h
    rcases h with ⟨u, v, huv⟩
    cases u with
    | nil =>
      simp only [List.nil_append, List.cons_append, List.cons.injEq] at huv
      rcases huv with ⟨rfl, huv⟩
      cases X with
      | nil =>
        simp only [List.nil_append] at huv
        exact Or.inr (Or.inr ⟨rfl, by rw [huv]; rfl⟩)
      | cons x2 X2 =>
        simp only [List.cons_append, List.cons.injEq] at huv
        rcases huv with ⟨rfl, -⟩
        exact Or.inl ⟨[], X2, rfl⟩
    | cons u0 u' =>
      simp only [List.cons_append, List.cons.injEq] at huv
      rcases huv with ⟨rfl, huv⟩
      rcases ih Y ⟨u', v, huv⟩ with h2 | h2 | ⟨h2, h3⟩
      · rcases h2 with ⟨p, q, hpq⟩
        exact Or.inl ⟨x :: p, q, by rw [hpq]; rfl⟩
      · exact Or.inr (Or.inl h2)
      · refine Or.inr (Or.inr ⟨?_, h3⟩)
        cases X with
        | nil => simp at h2
        | cons x2 X2 =>
          rw [List.getLast?_cons_cons]
          exact h2

theorem ws2_strip (w : Nat) (h : isWs2 w = true) : isStripWs w = true := by
  simp only [isWs2, Bool.or_eq_true, beq_iff_eq] at h
  rcases h with rfl | rfl <;> rfl

theorem bound_not_ws2 (b : Nat) (h : isBoundary b = true) : isWs2 b = false := by
  simp only [isBoundary, Bool.or_eq_true, beq_iff_eq] at h
  simp only [isWs2, Bool.or_eq_false_iff, beq_eq_false_iff_ne, ne_eq]
  omega

theorem bound_not_strip (b : Nat) (h : isBoundary b = true) (h10 : b ≠ 10) (h13 : b ≠ 13) :
    isStripWs b = false := by
  simp only [isBoundary, Bool.or_eq_true, beq_iff_eq] at h
  simp only [isStripWs, Bool.or_eq_false_iff, beq_eq_false_iff_ne, ne_eq]
  omega

theorem noB_ne_10 (body : List Nat) (hb : ∀ x ∈ body, isBoundary x = false) :
    10 ∉ body := by
  intro h
  have := hb 10 h
  simp [isBoundary] at this

theorem noB_ne_13 (body : List Nat) (hb : ∀ x ∈ body, isBoundary x = false) :
    13 ∉ body := by
  intro h
  have := hb 13 h
  simp [isBoundary] at this

theorem noWsLFb_tail (a : Nat) (l : List Nat) (h : noWsLFb (a :: l) = true) :
    noWsLFb l = true := by
  cases l with
  | nil => rfl
  | cons b rest =>
    simp only [noWsLFb, Bool.and_eq_true] at h
    exact h.2

theorem noWsLFb_sound : ∀ l : List Nat, noWsLFb l = true → noWsLF l := by
  intro l
  induction l with
  | nil =>
    rintro - w hw ⟨x, y, hxy⟩
    simp at hxy
  | cons a l ih =>
    rintro h w hw ⟨x, y, hxy⟩
    cases x with
    | nil =>
      simp only [List.nil_append, List.cons.injEq] at hxy
      rcases hxy with ⟨rfl, rfl⟩
      simp [noWsLFb, hw] at h
    | cons x0 x' =>
      simp only [List.cons_append, List.cons.injEq] at hxy
      rcases hxy with ⟨rfl, hxy⟩
      exact ih (noWsLFb_tail a l h) w hw ⟨x', y, hxy⟩

theorem lastNotWs2b_sound (l : List Nat) (h : lastNotWs2b l = true) : lastNotWs2 l := by
  intro w hw
  unfold lastNotWs2b at h
  rw [hw] at h
  simpa using h

theorem no10_noWsLF (l : List Nat) (h : 10 ∉ l) : noWsLF l :=
  fun w _ hp => h (pairAt_memR w 10 l hp)

theorem pairAt_not_singleton (a b c : Nat) : ¬ pairAt a b [c] := by
  rintro ⟨x, y, hxy⟩
  have := congrArg List.length hxy
  simp [List.length_append] at this
  omega

theorem CleanPred_nil : CleanPred [] := by
  refine ⟨by simp, ?_, ?_⟩
  · rintro w - ⟨x, y, hxy⟩
    simp at hxy
  · intro w hw
    simp at hw

theorem noWsLF_append (A B : List Nat) (hA : noWsLF A) (hB : noWsLF B)
    (hlast : lastNotWs2 A) : noWsLF (A ++ B) := by
  intro w hw hp
  rcases pairAt_split w 10 A B hp with h | h | ⟨h1, -⟩
  · exact hA w hw h
  · exact hB w hw h
  · rw [hlast w h1] at hw
    exact Bool.false_ne_true hw

theorem lastNotWs2_append (A B : List Nat) (hA : lastNotWs2 A) (hB : lastNotWs2 B) :
    lastNotWs2 (A ++ B) := by
  intro w hw
  rw [List.getLast?_append] at hw
  cases hB0 : B.getLast? with
  | some v =>
    rw [hB0] at hw
    have hw2 : some v = some w := hw
    injection hw2 with hw2
    subst hw2
    exact hB v hB0
  | none =>
    rw [hB0] at hw
    exact hA w hw

theorem CleanPred_append (A B : List Nat) (h13 : 13 ∉ A) (hws : noWsLF A)
    (hlast : lastNotWs2 A) (hB : CleanPred B) : CleanPred (A ++ B) := by
  refine ⟨?_, noWsLF_append A B hws hB.2.1 hlast, lastNotWs2_append A B hlast hB.2.2⟩
  intro hm
  rcases List.mem_append.mp hm with h | h
  · exact h13 h
  · exact hB.1 h

theorem CleanPred_suffix (X Y : List Nat) (h : CleanPred (X ++ Y)) : CleanPred Y := by
  obtain ⟨h13, hws, hlast⟩ := h
  refine ⟨fun hm => h13 (List.mem_append.mpr (Or.inr hm)), ?_, ?_⟩
  · intro w hw hp
    exact hws w hw (pairAt_appendR w 10 X Y hp)
  · intro w hw
    apply hlast w
    rw [List.getLast?_append, hw]
    rfl

theorem cleanLine_crlf (body : List Nat) :
    cleanLine (body ++ [13, 10]) = rstrip body ++ [10] := by
  unfold cleanLine
  have hsplit : body ++ [13, 10] = (body ++ [13]) ++ [10] := by simp
  rw [hsplit, if_pos (List.getLast?_concat _), rstrip_append_ws _ 10 rfl,
    rstrip_append_ws _ 13 rfl]

theorem cleanLine_lf (body : List Nat) :
    cleanLine (body ++ [10]) = rstrip body ++ [10] := by
  unfold cleanLine
  rw [if_pos (List.getLast?_concat body), rstrip_append_ws _ 10 rfl]

theorem cleanLine_bnd (body : List Nat) (b : Nat) (hb : isBoundary b = true)
    (h10 : b ≠ 10) (h13 : b ≠ 13) : cleanLine (body ++ [b]) = body ++ [b] := by
  unfold cleanLine
  have hne : ¬ (body ++ [b]).getLast? = some 10 := by
    rw [List.getLast?_concat]
    simp [h10]
  rw [if_neg hne, rstrip_append_nws body b (bound_not_strip b hb h10 h13)]

theorem cleanLine_cr (body : List Nat) : cleanLine (body ++ [13]) = rstrip body := by
  unfold cleanLine
  have hne : ¬ (body ++ [13]).getLast? = some 10 := by
    rw [List.getLast?_concat]
    simp
  rw [if_neg hne, rstrip_append_ws _ 13 rfl]

theorem cleanLine_noB (body : List Nat) (hb : ∀ x ∈ body, isBoundary x = false) :
    cleanLine body = rstrip body := by
  unfold cleanLine
  have hne : ¬ body.getLast? = some 10 := by
    intro h
    rcases List.getLast?_eq_some_iff.mp h with ⟨ys, rfl⟩
    exact noB_ne_10 _ hb (by simp)
  rw [if_neg hne]

theorem cleanLine_mem (ln : List Nat) (c : Nat) (h : c ∈ cleanLine ln) :
    c ∈ ln ∨ c = 10 := by
  unfold cleanLine at h
  split at h
  · rcases List.mem_append.mp h with h2 | h2
    · exact Or.inl (rstrip_sub ln c h2)
    · exact Or.inr (by simpa using h2)
  · exact Or.inl (rstrip_sub ln c h)

theorem pieceA_ok (body : List Nat) (hb : ∀ x ∈ body, isBoundary x = false) :
    13 ∉ rstrip body ++ [10] ∧ noWsLF (rstrip body ++ [10]) ∧
      lastNotWs2 (rstrip body ++ [10]) := by
  refine ⟨?_, ?_, ?_⟩
  · intro hm
    rcases List.mem_append.mp hm with h | h
    · exact noB_ne_13 body hb (rstrip_sub body 13 h)
    · simp at h
  · intro w hw hp
    rcases pairAt_split w 10 (rstrip body) [10] hp with h | h | ⟨h1, -⟩
    · exact noB_ne_10 body hb (rstrip_sub body 10 (pairAt_memR w 10 _ h))
    · exact pairAt_not_singleton w 10 10 h
    · have hf := rstrip_last body w h1
      rw [ws2_strip w hw] at hf
      simp at hf
  · intro w hw
    rw [List.getLast?_concat] at hw
    injection hw with hw
    subst hw
    rfl

theorem pieceB_ok (body : List Nat) (b : Nat) (hb : ∀ x ∈ body, isBoundary x = false)
    (hbb : isBoundary b = true) (h10 : b ≠ 10) (h13 : b ≠ 13) :
    13 ∉ body ++ [b] ∧ noWsLF (body ++ [b]) ∧ lastNotWs2 (body ++ [b]) := by
  refine ⟨?_, ?_, ?_⟩
  · intro hm
    rcases List.mem_append.mp hm with h | h
    · exact noB_ne_13 body hb h
    · rw [List.mem_singleton] at h
      exact h13 h.symm
  · apply no10_noWsLF
    intro hm
    rcases List.mem_append.mp hm with h | h
    · exact noB_ne_10 body hb h
    · rw [List.mem_singleton] at h
      exact h10 h.symm
  · intro w hw
    rw [List.getLast?_concat] at hw
    injection hw with hw
    subst hw
    exact bound_not_ws2 b hbb

theorem pieceC_ok (body : List Nat) (hb : ∀ x ∈ body, isBoundary x = false) :
    13 ∉ rstrip body ∧ noWsLF (rstrip body) ∧ lastNotWs2 (rstrip body) := by
  refine ⟨?_, ?_, ?_⟩
  · intro hm
    exact noB_ne_13 body hb (rstrip_sub body 13 hm)
  · apply no10_noWsLF
    intro hm
    exact noB_ne_10 body hb (rstrip_sub body 10 hm)
  · intro w hw
    have hf := rstrip_last body w hw
    cases hws : isWs2 w
    · rfl
    · rw [ws2_strip w hws] at hf
      simp at hf

theorem textClean_nil : textClean [] = [] := rfl

theorem textClean_cons (c : Nat) (rest : List Nat) :
    textClean (c :: rest) =
      cleanLine ((takeLine (c :: rest)).1) ++ textClean ((takeLine (c :: rest)).2) := by
  unfold textClean
  rw [splitlines_cons, List.map_cons, List.flatten_cons]

theorem CleanPred_textClean_aux :
    ∀ (n : Nat) (cps : List Nat), cps.length ≤ n → CleanPred (textClean cps) := by
  intro n
  induction n with
  | zero =>
    intro cps h
    have h0 : cps = [] := List.eq_nil_of_length_eq_zero (Nat.le_zero.mp h)
    subst h0
    exact CleanPred_nil
  | succ n ih =>
    intro cps h
    cases cps with
    | nil => exact CleanPred_nil
    | cons c rest =>
      rw [textClean_cons]
      have hlt := takeLine_snd_lt (c :: rest) (by simp)
      simp only [List.length_cons] at h hlt
      have hIH : CleanPred (textClean ((takeLine (c :: rest)).2)) := ih _ (by omega)
      rcases takeLine_shape rest c with ⟨body, hbody, hln | ⟨b, hb, hln⟩ | ⟨hln, -, h2⟩⟩
      · rw [hln, cleanLine_crlf]
        rcases pieceA_ok body hbody with ⟨p1, p2, p3⟩
        exact CleanPred_append _ _ p1 p2 p3 hIH
      · by_cases hb10 : b = 10
        · subst hb10
          rw [hln, cleanLine_lf]
          rcases pieceA_ok body hbody with ⟨p1, p2, p3⟩
          exact CleanPred_append _ _ p1 p2 p3 hIH
        · by_cases hb13 : b = 13
          · subst hb13
            rw [hln, cleanLine_cr]
            rcases pieceC_ok body hbody with ⟨p1, p2, p3⟩
            exact CleanPred_append _ _ p1 p2 p3 hIH
          · rw [hln, cleanLine_bnd body b hb hb10 hb13]
            rcases pieceB_ok body b hbody hb hb10 hb13 with ⟨p1, p2, p3⟩
            exact CleanPred_append _ _ p1 p2 p3 hIH
      · rw [hln, cleanLine_noB body hbody, h2, textClean_nil]
        rcases pieceC_ok body hbody with ⟨p1, p2, p3⟩
        exact CleanPred_append _ _ p1 p2 p3 CleanPred_nil

theorem CleanPred_textClean (cps : List Nat) : CleanPred (textClean cps) :=
  CleanPred_textClean_aux cps.length cps le_rfl

theorem textClean_fix_aux :
    ∀ (n : Nat) (cps : List Nat), cps.length ≤ n → CleanPred cps → textClean cps = cps := by
  intro n
  induction n with
  | zero =>
    intro cps h _
    have h0 : cps = [] := List.eq_nil_of_length_eq_zero (Nat.le_zero.mp h)
    subst h0
    rfl
  | succ n ih =>
    intro cps h hcp
    cases cps with
    | nil => rfl
    | cons c rest =>
      have happ := takeLine_append (c :: rest)
      have hlt := takeLine_snd_lt (c :: rest) (by simp)
      simp only [List.length_cons] at h hlt
      have hsuf : CleanPred ((takeLine (c :: rest)).2) := by
        apply CleanPred_suffix ((takeLine (c :: rest)).1)
        rw [happ]
        exact hcp
      have hIH : textClean ((takeLine (c :: rest)).2) = (takeLine (c :: rest)).2 :=
        ih _ (by omega) hsuf
      rw [textClean_cons, hIH]
      rcases takeLine_shape rest c with ⟨body, hbody, hln | ⟨b, hb, hln⟩ | ⟨hln, hne, h2⟩⟩
      · exfalso
        apply hcp.1
        rw [← happ, hln]
        simp
      · by_cases hb10 : b = 10
        · subst hb10
          have hself : rstrip body = body := by
            apply rstrip_eq_self
            intro w hw
            rcases List.getLast?_eq_some_iff.mp hw with ⟨ys, hys⟩
            have hwB : isBoundary w = false := hbody w (by rw [hys]; simp)
            cases hstrip : isStripWs w
            · rfl
            · exfalso
              have hw2 : isWs2 w = true := by
                simp only [isBoundary, Bool.or_eq_false_iff, beq_eq_false_iff_ne, ne_eq]
                  at hwB
                simp only [isStripWs, Bool.or_eq_true, beq_iff_eq] at hstrip
                simp only [isWs2, Bool.or_eq_true, beq_iff_eq]
                omega
              apply hcp.2.1 w hw2
              rw [← happ, hln, hys]
              apply pairAt_appendL
              exact ⟨ys, [], by simp⟩
          rw [hln, cleanLine_lf, hself, ← hln, happ]
        · by_cases hb13 : b = 13
          · exfalso
            subst hb13
            apply hcp.1
            rw [← happ, hln]
            simp
          · rw [hln, cleanLine_bnd body b hb hb10 hb13, ← hln, happ]
      · have hcps : c :: rest = body := by
          rw [← happ, hln, h2]
          simp
        have hself : rstrip body = body := by
          apply rstrip_eq_self
          intro w hw
          have hwB : isBoundary w = false := by
            apply hbody w
            rcases List.getLast?_eq_some_iff.mp hw with ⟨ys, hys⟩
            rw [hys]
            simp
          have hwlast : isWs2 w = false := by
            apply hcp.2.2 w
            rw [hcps]
            exact hw
          simp only [isBoundary, Bool.or_eq_false_iff, beq_eq_false_iff_ne, ne_eq] at hwB
          simp only [isWs2, Bool.or_eq_false_iff, beq_eq_false_iff_ne, ne_eq] at hwlast
          simp only [isStripWs, Bool.or_eq_false_iff, beq_eq_false_iff_ne, ne_eq]
          omega
        rw [hln, cleanLine_noB body hbody, hself, h2, ← hln, ← h2, happ]

theorem textClean_of_CleanPred (cps : List Nat) (h : CleanPred cps) : textClean cps = cps :=
  textClean_fix_aux cps.length cps le_rfl h

theorem utf8Encode_nil : utf8Encode [] = [] := rfl

theorem utf8Encode_cons (c : Nat) (cps : List Nat) :
    utf8Encode (c :: cps) = utf8EncodeChar c ++ utf8Encode cps := by
  simp [utf8Encode]

theorem utf8Encode_append (X Y : List Nat) :
    utf8Encode (X ++ Y) = utf8Encode X ++ utf8Encode Y := by
  simp [utf8Encode]

theorem utf8EncodeChar_small (c : Nat) (h : c < 128) : utf8EncodeChar c = [c] := by
  simp [utf8EncodeChar, h]

theorem utf8EncodeChar_ne_nil (c : Nat) : utf8EncodeChar c ≠ [] := by
  unfold utf8EncodeChar
  split
  · simp
  · split
    · simp
    · split <;> simp

theorem utf8EncodeChar_mem13 (c : Nat) (h : 13 ∈ utf8EncodeChar c) : c = 13 := by
  unfold utf8EncodeChar at h
  split at h
  · rw [List.mem_singleton] at h
    exact h.symm
  · rename_i h1
    split at h
    · simp only [List.mem_cons, List.mem_singleton, List.not_mem_nil, or_false] at h
      rcases h with h | h <;> omega
    · rename_i h2
      split at h
      · simp only [List.mem_cons, List.mem_singleton, List.not_mem_nil, or_false] at h
        rcases h with h | h | h <;> omega
      · simp only [List.mem_cons, List.mem_singleton, List.not_mem_nil, or_false] at h
        rcases h with h | h | h | h <;> omega

theorem utf8Encode_mem13 (cps : List Nat) (h : 13 ∉ cps) : 13 ∉ utf8Encode cps := by
  intro hm
  unfold utf8Encode at hm
  rcases List.mem_flatten.mp hm with ⟨blk, hblk, h13⟩
  rcases List.mem_map.mp hblk with ⟨c, hc, rfl⟩
  rw [utf8EncodeChar_mem13 c h13] at hc
  exact h hc

theorem utf8Encode_mem_small (c : Nat) (cps : List Nat) (hc : c ∈ cps) (h : c < 128) :
    c ∈ utf8Encode cps := by
  unfold utf8Encode
  refine List.mem_flatten.mpr ⟨utf8EncodeChar c, List.mem_map_of_mem _ hc, ?_⟩
  rw [utf8EncodeChar_small c h]
  simp

theorem utf8EncodeChar_last (c : Nat) (w : Nat)
    (h : (utf8EncodeChar c).getLast? = some w) : (c < 128 ∧ w = c) ∨ 128 ≤ w := by
  unfold utf8EncodeChar at h
  split at h
  · rename_i h1
    simp only [List.getLast?_singleton, Option.some.injEq] at h
    exact Or.inl ⟨h1, h.symm⟩
  · split at h
    · rw [show [192 + c / 64, 128 + c % 64] = [192 + c / 64] ++ [128 + c % 64] from rfl,
        List.getLast?_concat] at h
      injection h with h
      omega
    · split at h
      · rw [show [224 + c / 4096, 128 + c / 64 % 64, 128 + c % 64] =
            [224 + c / 4096, 128 + c / 64 % 64] ++ [128 + c % 64] from rfl,
          List.getLast?_concat] at h
        injection h with h
        omega
      · rw [show [240 + c / 262144, 128 + c / 4096 % 64, 128 + c / 64 % 64, 128 + c % 64] =
            [240 + c / 262144, 128 + c / 4096 % 64, 128 + c / 64 % 64] ++ [128 + c % 64]
            from rfl, List.getLast?_concat] at h
        injection h with h
        omega

theorem utf8Encode_last (cps : List Nat) (w : Nat) (hw : w < 128) :
    (utf8Encode cps).getLast? = some w ↔ cps.getLast? = some w := by
  rcases List.eq_nil_or_concat cps with rfl | ⟨L, c, hc⟩
  · simp [utf8Encode_nil]
  · rw [List.concat_eq_append] at hc
    subst hc
    rw [utf8Encode_append, List.getLast?_concat]
    constructor
    · intro h
      rw [List.getLast?_append] at h
      cases hlast : (utf8Encode [c]).getLast? with
      | none =>
        exfalso
        rw [List.getLast?_eq_none_iff] at hlast
        have : utf8EncodeChar c ≠ [] := utf8EncodeChar_ne_nil c
        rw [show utf8Encode [c] = utf8EncodeChar c by simp [utf8Encode]] at hlast
        exact this hlast
      | some v =>
        rw [hlast] at h
        have h2 : some v = some w := h
        injection h2 with h2
        subst h2
        have h3 : (utf8EncodeChar c).getLast? = some v := by
          rw [show utf8Encode [c] = utf8EncodeChar c by simp [utf8Encode]] at hlast
          exact hlast
        rcases utf8EncodeChar_last c v h3 with ⟨-, rfl⟩ | hge
        · rfl
        · omega
    · intro h
      injection h with h
      subst h
      rw [List.getLast?_append,
        show utf8Encode [c] = utf8EncodeChar c by simp [utf8Encode],
        utf8EncodeChar_small c hw]
      rfl

theorem pairAt_encode (a b : Nat) (cps : List Nat) (ha : a < 128) (hb : b < 128)
    (h : pairAt a b cps) : pairAt a b (utf8Encode cps) := by
  rcases h with ⟨x, y, rfl⟩
  refine ⟨utf8Encode x, utf8Encode y, ?_⟩
  rw [utf8Encode_append, utf8Encode_cons, utf8Encode_cons,
    utf8EncodeChar_small a ha, utf8EncodeChar_small b hb]
  simp

theorem utf8DecodeOne_spec (bs : List Nat) (cp : Nat) (rest2 : List Nat)
    (h : utf8DecodeOne bs = some (cp, rest2)) :
    utf8EncodeChar cp ++ rest2 = bs ∧ ValidScalar cp ∧ rest2.length < bs.length := by
  cases bs with
  | nil => exact Option.noConfusion h
  | cons b rest =>
    simp only [utf8DecodeOne] at h
    by_cases h1 : b < 128
    · rw [if_pos h1] at h
      injection h with h
      injection h with hcp hr
      subst hcp
      subst hr
      refine ⟨by rw [utf8EncodeChar_small b h1]; rfl, ⟨by omega, by omega⟩, by simp⟩
    · rw [if_neg h1] at h
      by_cases h2 : b < 194
      · rw [if_pos h2] at h; exact Option.noConfusion h
      · rw [if_neg h2] at h
        by_cases h3 : b < 224
        · rw [if_pos h3] at h
          cases rest with
          | nil => exact Option.noConfusion h
          | cons c1 r =>
            simp only [dec2Step] at h
            by_cases hc1 : isCont c1
            · rw [if_pos hc1] at h
              injection h with h
              injection h with hcp hr
              subst hcp
              subst hr
              simp only [isCont, Bool.and_eq_true, decide_eq_true_eq] at hc1
              unfold dec2v
              refine ⟨?_, ⟨by omega, by omega⟩, by simp only [List.length_cons]; omega⟩
              unfold utf8EncodeChar
              rw [if_neg (by omega), if_pos (by omega)]
              simp only [List.cons_append, List.nil_append, List.cons.injEq]
              refine ⟨by omega, by omega, trivial⟩
            · rw [if_neg hc1] at h
              exact Option.noConfusion h
        · rw [if_neg h3] at h
          by_cases h4 : b < 240
          · rw [if_pos h4] at h
            cases rest with
            | nil => exact Option.noConfusion h
            | cons c1 r' =>
              cases r' with
              | nil => exact Option.noConfusion h
              | cons c2 r =>
                simp only [dec3Step] at h
                by_cases hcond : cont3ok b c1 && isCont c2
                · rw [if_pos hcond] at h
                  injection h with h
                  injection h with hcp hr
                  subst hcp
                  subst hr
                  simp only [Bool.and_eq_true] at hcond
                  obtain ⟨hcc1, hc2⟩ := hcond
                  simp only [isCont, Bool.and_eq_true, decide_eq_true_eq] at hc2
                  have hc1r : (128 ≤ c1 ∧ c1 < 192) ∧
                      (b = 224 → 160 ≤ c1) ∧ (b = 237 → c1 < 160) := by
                    unfold cont3ok at hcc1
                    by_cases hb224 : b = 224
                    · rw [if_pos hb224] at hcc1
                      simp only [Bool.and_eq_true, decide_eq_true_eq] at hcc1
                      refine ⟨⟨by omega, by omega⟩, fun _ => by omega, fun hb => ?_⟩
                      omega
                    · rw [if_neg hb224] at hcc1
                      by_cases hb237 : b = 237
                      · rw [if_pos hb237] at hcc1
                        simp only [Bool.and_eq_true, decide_eq_true_eq] at hcc1
                        exact ⟨⟨by omega, by omega⟩, fun hb => by omega, fun _ => by omega⟩
                      · rw [if_neg hb237] at hcc1
                        simp only [isCont, Bool.and_eq_true, decide_eq_true_eq] at hcc1
                        exact ⟨⟨by omega, by omega⟩, fun hb => absurd hb hb224,
                          fun hb => absurd hb hb237⟩
                  obtain ⟨⟨hc1a, hc1b⟩, hE0, hED⟩ := hc1r
                  have hlow : 2048 ≤ dec3v b c1 c2 := by
                    unfold dec3v
                    by_cases hb224 : b = 224
                    · have := hE0 hb224
                      subst hb224
                      omega
                    · have hb1 : 1 ≤ b - 224 := by omega
                      have : 4096 ≤ (b - 224) * 4096 := by
                        calc 4096 = 1 * 4096 := by omega
                        _ ≤ (b - 224) * 4096 := Nat.mul_le_mul_right 4096 hb1
                      omega
                  have hup : (b - 224) * 4096 ≤ 15 * 4096 :=
                    Nat.mul_le_mul_right 4096 (by omega)
                  have hnosur : ¬(55296 ≤ dec3v b c1 c2 ∧ dec3v b c1 c2 < 57344) := by
                    unfold dec3v
                    rintro ⟨hs1, hs2⟩
                    -- 55296 = 13*4096 + 32*64; the band [55296, 57344) has lead ED
                    have hb237 : b = 237 := by
                      rcases Nat.lt_or_ge b 237 with hlt | hge
                      · have : (b - 224) * 4096 ≤ 12 * 4096 :=
                          Nat.mul_le_mul_right 4096 (by omega)
                        omega
                      · rcases Nat.eq_or_lt_of_le hge with he | hgt
                        · omega
                        · have : 14 * 4096 ≤ (b - 224) * 4096 :=
                            Nat.mul_le_mul_right 4096 (by omega)
                          omega
                    have := hED hb237
                    subst hb237
                    omega
                  refine ⟨?_, ⟨by unfold dec3v at *; omega, hnosur⟩,
                    by simp only [List.length_cons]; omega⟩
                  unfold utf8EncodeChar
                  rw [if_neg (by omega), if_neg (by omega), if_pos (by
                    unfold dec3v at *
                    omega)]
                  simp only [List.cons_append, List.nil_append, List.cons.injEq]
                  unfold dec3v at *
                  refine ⟨by omega, by omega, by omega, trivial⟩
                · rw [if_neg hcond] at h
                  exact Option.noConfusion h
          · rw [if_neg h4] at h
            by_cases h5 : b < 245
            · rw [if_pos h5] at h
              cases rest with
              | nil => exact Option.noConfusion h
              | cons c1 r'' =>
                cases r'' with
                | nil => exact Option.noConfusion h
                | cons c2 r' =>
                  cases r' with
                  | nil => exact Option.noConfusion h
                  | cons c3 r =>
                    simp only [dec4Step] at h
                    by_cases hcond : cont4ok b c1 && isCont c2 && isCont c3
                    · rw [if_pos hcond] at h
                      injection h with h
                      injection h with hcp hr
                      subst hcp
                      subst hr
                      simp only [Bool.and_eq_true] at hcond
                      obtain ⟨⟨hcc1, hc2⟩, hc3⟩ := hcond
                      simp only [isCont, Bool.and_eq_true, decide_eq_true_eq] at hc2 hc3
                      have hc1r : (128 ≤ c1 ∧ c1 < 192) ∧
                          (b = 240 → 144 ≤ c1) ∧ (b = 244 → c1 < 144) := by
                        unfold cont4ok at hcc1
                        by_cases hb240 : b = 240
                        · rw [if_pos hb240] at hcc1
                          simp only [Bool.and_eq_true, decide_eq_true_eq] at hcc1
                          exact ⟨⟨by omega, by omega⟩, fun _ => by omega,
                            fun hb => by omega⟩
                        · rw [if_neg hb240] at hcc1
                          by_cases hb244 : b = 244
                          · rw [if_pos hb244] at hcc1
                            simp only [Bool.and_eq_true, decide_eq_true_eq] at hcc1
                            exact ⟨⟨by omega, by omega⟩, fun hb => by omega,
                              fun _ => by omega⟩
                          · rw [if_neg hb244] at hcc1
                            simp only [isCont, Bool.and_eq_true, decide_eq_true_eq] at hcc1
                            exact ⟨⟨by omega, by omega⟩, fun hb => absurd hb hb240,
                              fun hb => absurd hb hb244⟩
                      obtain ⟨⟨hc1a, hc1b⟩, hF0, hF4⟩ := hc1r
                      have hlow : 65536 ≤ dec4v b c1 c2 c3 := by
                        unfold dec4v
                        by_cases hb240 : b = 240
                        · have h16 := hF0 hb240
                          subst hb240
                          have : 16 * 4096 ≤ (c1 - 128) * 4096 :=
                            Nat.mul_le_mul_right 4096 (by omega)
                          omega
                        · have hb1 : 1 ≤ b - 240 := by omega
                          have : 262144 ≤ (b - 240) * 262144 := by
                            calc 262144 = 1 * 262144 := by omega
                            _ ≤ (b - 240) * 262144 := Nat.mul_le_mul_right 262144 hb1
                          omega
                      have hup : (b - 240) * 262144 ≤ 4 * 262144 :=
                        Nat.mul_le_mul_right 262144 (by omega)
                      have hup1 : (c1 - 128) * 4096 ≤ 63 * 4096 :=
                        Nat.mul_le_mul_right 4096 (by omega)
                      have hvup : dec4v b c1 c2 c3 < 1114112 := by
                        unfold dec4v
                        by_cases hb244 : b = 244
                        · have := hF4 hb244
                          subst hb244
                          have : (c1 - 128) * 4096 ≤ 15 * 4096 :=
                            Nat.mul_le_mul_right 4096 (by omega)
                          omega
                        · have : b ≤ 243 := by omega
                          have : (b - 240) * 262144 ≤ 3 * 262144 :=
                            Nat.mul_le_mul_right 262144 (by omega)
                          omega
                      refine ⟨?_, ⟨hvup, by unfold dec4v at *; omega⟩,
                        by simp only [List.length_cons]; omega⟩
                      unfold utf8EncodeChar
                      rw [if_neg (by unfold dec4v at *; omega),
                        if_neg (by unfold dec4v at *; omega),
                        if_neg (by unfold dec4v at *; omega)]
                      simp only [List.cons_append, List.nil_append, List.cons.injEq]
                      unfold dec4v at *
                      refine ⟨by omega, by omega, by omega, by omega, trivial⟩
                    · rw [if_neg hcond] at h
                      exact Option.noConfusion h
            · rw [if_neg h5] at h
              exact Option.noConfusion h

theorem isCont_of_bounds (x : Nat) (h1 : 128 ≤ x) (h2 : x < 192) : isCont x = true := by
  simp only [isCont, Bool.and_eq_true, decide_eq_true_eq]
  exact ⟨h1, h2⟩

theorem cont3ok_encode (c : Nat) (hB : 2048 ≤ c) (hC : c < 65536)
    (hsur : ¬(55296 ≤ c ∧ c < 57344)) :
    cont3ok (224 + c / 4096) (128 + c / 64 % 64) = true := by
  have hsur' : c < 55296 ∨ 57344 ≤ c := by
    rcases Nat.lt_or_ge c 55296 with h | h
    · exact Or.inl h
    · rcases Nat.lt_or_ge c 57344 with h2 | h2
      · exact absurd ⟨h, h2⟩ hsur
      · exact Or.inr h2
  unfold cont3ok
  by_cases h224 : 224 + c / 4096 = 224
  · rw [if_pos h224]
    simp only [Bool.and_eq_true, decide_eq_true_eq]
    omega
  · rw [if_neg h224]
    by_cases h237 : 224 + c / 4096 = 237
    · rw [if_pos h237]
      simp only [Bool.and_eq_true, decide_eq_true_eq]
      omega
    · rw [if_neg h237]
      simp only [isCont, Bool.and_eq_true, decide_eq_true_eq]
      omega

theorem cont4ok_encode (c : Nat) (hC : 65536 ≤ c) (hD : c < 1114112) :
    cont4ok (240 + c / 262144) (128 + c / 4096 % 64) = true := by
  unfold cont4ok
  by_cases h240 : 240 + c / 262144 = 240
  · rw [if_pos h240]
    simp only [Bool.and_eq_true, decide_eq_true_eq]
    omega
  · rw [if_neg h240]
    by_cases h244 : 240 + c / 262144 = 244
    · rw [if_pos h244]
      simp only [Bool.and_eq_true, decide_eq_true_eq]
      omega
    · rw [if_neg h244]
      simp only [isCont, Bool.and_eq_true, decide_eq_true_eq]
      omega

theorem utf8DecodeOne_encodeChar (c : Nat) (tail : List Nat) (hv : ValidScalar c) :
    utf8DecodeOne (utf8EncodeChar c ++ tail) = some (c, tail) := by
  obtain ⟨hv1, hv2⟩ := hv
  by_cases hA : c < 128
  · rw [utf8EncodeChar_small c hA]
    simp only [List.cons_append, List.nil_append, utf8DecodeOne]
    rw [if_pos hA]
  · by_cases hB : c < 2048
    · rw [show utf8EncodeChar c = [192 + c / 64, 128 + c % 64] by
        unfold utf8EncodeChar; rw [if_neg hA, if_pos hB]]
      simp only [List.cons_append, List.nil_append, utf8DecodeOne]
      rw [if_neg (by omega), if_neg (by omega), if_pos (by omega)]
      simp only [dec2Step]
      rw [if_pos (isCont_of_bounds _ (by omega) (by omega))]
      have hd : dec2v (192 + c / 64) (128 + c % 64) = c := by unfold dec2v; omega
      rw [hd]
    · by_cases hC : c < 65536
      · rw [show utf8EncodeChar c = [224 + c / 4096, 128 + c / 64 % 64, 128 + c % 64] by
          unfold utf8EncodeChar; rw [if_neg hA, if_neg hB, if_pos hC]]
        simp only [List.cons_append, List.nil_append, utf8DecodeOne]
        rw [if_neg (by omega), if_neg (by omega), if_neg (by omega), if_pos (by omega)]
        simp only [dec3Step]
        rw [if_pos (by
          rw [cont3ok_encode c (by omega) hC hv2, isCont_of_bounds _ (by omega) (by omega)]
          rfl)]
        have hd : dec3v (224 + c / 4096) (128 + c / 64 % 64) (128 + c % 64) = c := by
          unfold dec3v; omega
        rw [hd]
      · rw [show utf8EncodeChar c =
            [240 + c / 262144, 128 + c / 4096 % 64, 128 + c / 64 % 64, 128 + c % 64] by
          unfold utf8EncodeChar; rw [if_neg hA, if_neg hB, if_neg hC]]
        simp only [List.cons_append, List.nil_append, utf8DecodeOne]
        have hdiv : c / 262144 ≤ 4 := by omega
        rw [if_neg (by omega), if_neg (by omega), if_neg (by omega), if_neg (by omega),
          if_pos (by omega)]
        simp only [dec4Step]
        rw [if_pos (by
          rw [cont4ok_encode c (by omega) hv1, isCont_of_bounds _ (by omega) (by omega),
            isCont_of_bounds _ (by omega) (by omega)]
          rfl)]
        have hd : dec4v (240 + c / 262144) (128 + c / 4096 % 64) (128 + c / 64 % 64)
            (128 + c % 64) = c := by
          unfold dec4v; omega
        rw [hd]

theorem utf8DecodeGo_fuel : ∀ (n m : Nat) (bs : List Nat),
    bs.length ≤ n → bs.length ≤ m → utf8DecodeGo n bs = utf8DecodeGo m bs := by
  intro n
  induction n with
  | zero =>
    intro m bs hn _
    have h0 : bs = [] := List.eq_nil_of_length_eq_zero (Nat.le_zero.mp hn)
    subst h0
    cases m <;> rfl
  | succ n ih =>
    intro m bs hn hm
    cases bs with
    | nil => cases m <;> rfl
    | cons b rest =>
      cases m with
      | zero => simp at hm
      | succ m =>
        cases hone : utf8DecodeOne (b :: rest) with
        | none => simp only [utf8DecodeGo, hone]
        | some pr =>
          obtain ⟨cp, rest2⟩ := pr
          have hlt := (utf8DecodeOne_spec _ _ _ hone).2.2
          simp only [List.length_cons] at hn hm hlt
          simp only [utf8DecodeGo, hone]
          rw [ih m rest2 (by omega) (by omega)]

theorem utf8Decode_cons_some (b : Nat) (rest : List Nat) (cp : Nat) (rest2 : List Nat)
    (hone : utf8DecodeOne (b :: rest) = some (cp, rest2)) :
    utf8Decode (b :: rest) =
      match utf8Decode rest2 with
      | none => none
      | some cps => some (cp :: cps) := by
  have hlt := (utf8DecodeOne_spec _ _ _ hone).2.2
  simp only [List.length_cons] at hlt
  unfold utf8Decode
  simp only [List.length_cons, utf8DecodeGo, hone]
  rw [utf8DecodeGo_fuel rest.length rest2.length rest2 (by omega) le_rfl]

theorem utf8Decode_cons_none (b : Nat) (rest : List Nat)
    (hone : utf8DecodeOne (b :: rest) = none) : utf8Decode (b :: rest) = none := by
  unfold utf8Decode
  simp only [List.length_cons, utf8DecodeGo, hone]

theorem utf8Decode_encode_valid_aux :
    ∀ (n : Nat) (bs : List Nat), bs.length ≤ n → ∀ cps, utf8Decode bs = some cps →
      utf8Encode cps = bs ∧ ∀ c ∈ cps, ValidScalar c := by
  intro n
  induction n with
  | zero =>
    intro bs hn cps h
    have h0 : bs = [] := List.eq_nil_of_length_eq_zero (Nat.le_zero.mp hn)
    subst h0
    have h' : some ([] : List Nat) = some cps := h
    injection h' with h'
    subst h'
    exact ⟨rfl, by simp⟩
  | succ n ih =>
    intro bs hn cps h
    cases bs with
    | nil =>
      have h' : some ([] : List Nat) = some cps := h
      injection h' with h'
      subst h'
      exact ⟨rfl, by simp⟩
    | cons b rest =>
      cases hone : utf8DecodeOne (b :: rest) with
      | none =>
        rw [utf8Decode_cons_none b rest hone] at h
        exact Option.noConfusion h
      | some pr =>
        obtain ⟨cp, rest2⟩ := pr
        rw [utf8Decode_cons_some b rest cp rest2 hone] at h
        cases hrec : utf8Decode rest2 with
        | none =>
          rw [hrec] at h
          exact Option.noConfusion h
        | some cps' =>
          rw [hrec] at h
          have h' : some (cp :: cps') = some cps := h
          injection h' with h'
          subst h'
          obtain ⟨henc, hval, hlt⟩ := utf8DecodeOne_spec _ _ _ hone
          simp only [List.length_cons] at hn hlt
          obtain ⟨ih1, ih2⟩ := ih rest2 (by omega) cps' hrec
          constructor
          · rw [utf8Encode_cons, ih1, henc]
          · intro c hc
            rcases List.mem_cons.mp hc with rfl | hc
            · exact hval
            · exact ih2 c hc

theorem utf8Decode_encode (bs cps : List Nat) (h : utf8Decode bs = some cps) :
    utf8Encode cps = bs :=
  (utf8Decode_encode_valid_aux bs.length bs le_rfl cps h).1

theorem utf8Decode_valid (bs cps : List Nat) (h : utf8Decode bs = some cps) :
    ∀ c ∈ cps, ValidScalar c :=
  (utf8Decode_encode_valid_aux bs.length bs le_rfl cps h).2

theorem utf8Decode_of_encode :
    ∀ cps : List Nat, (∀ c ∈ cps, ValidScalar c) → utf8Decode (utf8Encode cps) = some cps := by
  intro cps
  induction cps with
  | nil => intro _; rfl
  | cons c cps' ih =>
    intro hv
    rw [utf8Encode_cons]
    cases hE : utf8EncodeChar c with
    | nil => exact absurd hE (utf8EncodeChar_ne_nil c)
    | cons b0 t0 =>
      have hone : utf8DecodeOne (b0 :: (t0 ++ utf8Encode cps')) = some (c, utf8Encode cps') := by
        rw [show b0 :: (t0 ++ utf8Encode cps') = (b0 :: t0) ++ utf8Encode cps' from rfl,
          ← hE]
        exact utf8DecodeOne_encodeChar c (utf8Encode cps') (hv c (by simp))
      rw [List.cons_append, utf8Decode_cons_some _ _ _ _ hone,
        ih (fun x hx => hv x (by simp [hx]))]

theorem replaceCRLF_13free : ∀ l : List Nat, 13 ∉ l → replaceCRLF l = l := by
  intro l
  induction l with
  | nil => intro _; rfl
  | cons c rest ih =>
    intro h
    have hc : c ≠ 13 := by
      intro h0
      subst h0
      exact h (by simp)
    rw [replaceCRLF.eq_3 c rest (fun r h13 _ => absurd h13 hc),
      ih (fun hm => h (List.mem_cons.mpr (Or.inr hm)))]

theorem replaceCRLF_ne_nil : ∀ (c : Nat) (rest : List Nat), replaceCRLF (c :: rest) ≠ [] := by
  intro c rest
  by_cases hc : c = 13
  · subst hc
    cases rest with
    | nil =>
      rw [replaceCRLF.eq_3 13 [] (fun r _ h => by simp at h)]
      simp
    | cons d r2 =>
      by_cases hd : d = 10
      · subst hd
        rw [replaceCRLF.eq_2]
        simp
      · rw [replaceCRLF.eq_3 13 (d :: r2)
          (fun r _ h => by injection h with h1 _; exact hd h1)]
        simp
  · rw [replaceCRLF.eq_3 c rest (fun r h13 _ => absurd h13 hc)]
    simp

theorem replaceCRLF_last10 : ∀ (n : Nat) (l : List Nat), l.length ≤ n →
    l.getLast? = some 10 → (replaceCRLF l).getLast? = some 10 := by
  intro n
  induction n with
  | zero =>
    intro l hn h
    have h0 : l = [] := List.eq_nil_of_length_eq_zero (Nat.le_zero.mp hn)
    subst h0
    simp at h
  | succ n ih =>
    intro l hn h
    cases l with
    | nil => simp at h
    | cons c rest =>
      cases rest with
      | nil =>
        have hc : c = 10 := by
          have h' : some c = some 10 := h
          injection h' with h'
        subst hc
        rw [replaceCRLF.eq_3 10 [] (fun r h' _ => by omega)]
        rfl
      | cons d r2 =>
        simp only [List.length_cons] at hn
        have hrlast : (d :: r2).getLast? = some 10 := by
          rw [← List.getLast?_cons_cons]
          exact h
        by_cases hc : c = 13
        · subst hc
          by_cases hd : d = 10
          · subst hd
            rw [replaceCRLF.eq_2]
            cases r2 with
            | nil => rfl
            | cons e r3 =>
              have h3 : (e :: r3).getLast? = some 10 := by
                rw [← List.getLast?_cons_cons]
                exact hrlast
              have hrec := ih (e :: r3) (by simp only [List.length_cons] at hn ⊢; omega) h3
              cases hrep : replaceCRLF (e :: r3) with
              | nil => exact absurd hrep (replaceCRLF_ne_nil e r3)
              | cons f r4 =>
                rw [hrep] at hrec
                rw [List.getLast?_cons_cons]
                exact hrec
          · rw [replaceCRLF.eq_3 13 (d :: r2)
              (fun r _ h' => by injection h' with h1 _; exact hd h1)]
            have hrec := ih (d :: r2) (by simp only [List.length_cons]; omega) hrlast
            cases hrep : replaceCRLF (d :: r2) with
            | nil => exact absurd hrep (replaceCRLF_ne_nil d r2)
            | cons f r4 =>
              rw [hrep] at hrec
              rw [List.getLast?_cons_cons]
              exact hrec
        · rw [replaceCRLF.eq_3 c (d :: r2) (fun r h13 _ => absurd h13 hc)]
          have hrec := ih (d :: r2) (by simp only [List.length_cons]; omega) hrlast
          cases hrep : replaceCRLF (d :: r2) with
          | nil => exact absurd hrep (replaceCRLF_ne_nil d r2)
          | cons f r4 =>
            rw [hrep] at hrec
            rw [List.getLast?_cons_cons]
            exact hrec

theorem textClean_mem (cps : List Nat) (c : Nat) (h : c ∈ textClean cps) :
    c ∈ cps ∨ c = 10 := by
  unfold textClean at h
  rcases List.mem_flatten.mp h with ⟨piece, hp, hc⟩
  rcases List.mem_map.mp hp with ⟨ln, hln, rfl⟩
  rcases cleanLine_mem ln c hc with h1 | h1
  · exact Or.inl (splitlines_sub cps ln c hln h1)
  · exact Or.inr h1

theorem textClean_last10 : ∀ (n : Nat) (cps : List Nat), cps.length ≤ n →
    cps.getLast? = some 10 → (textClean cps).getLast? = some 10 := by
  intro n
  induction n with
  | zero =>
    intro cps hn h
    have h0 : cps = [] := List.eq_nil_of_length_eq_zero (Nat.le_zero.mp hn)
    subst h0
    simp at h
  | succ n ih =>
    intro cps hn h
    cases cps with
    | nil => simp at h
    | cons c rest =>
      rw [textClean_cons]
      have happ := takeLine_append (c :: rest)
      have hlt := takeLine_snd_lt (c :: rest) (by simp)
      simp only [List.length_cons] at hn hlt
      cases htl2 : (takeLine (c :: rest)).2 with
      | cons d r2 =>
        have h2 : (d :: r2).getLast? = some 10 := by
          rw [← happ, htl2, List.getLast?_append] at h
          cases hv : (d :: r2).getLast? with
          | none =>
            rw [List.getLast?_eq_none_iff] at hv
            exact absurd hv (by simp)
          | some v =>
            rw [hv] at h
            have h' : some v = some 10 := h
            exact h'
        rw [htl2] at hlt
        simp only [List.length_cons] at hlt
        have hrec := ih (d :: r2) (by simp only [List.length_cons]; omega) h2
        rw [List.getLast?_append]
        cases htc : (textClean (d :: r2)).getLast? with
        | none =>
          rw [htc] at hrec
          exact Option.noConfusion hrec
        | some v =>
          rw [htc] at hrec
          exact hrec
      | nil =>
        have hcps : c :: rest = (takeLine (c :: rest)).1 := by
          conv_lhs => rw [← happ, htl2]
          simp
        rcases takeLine_shape rest c with ⟨body, hbody, hln | ⟨b, hb, hln⟩ | ⟨hln, hne, h2⟩⟩
        · rw [textClean_nil, List.append_nil, hln, cleanLine_crlf]
          exact List.getLast?_concat _
        · by_cases hb10 : b = 10
          · subst hb10
            rw [textClean_nil, List.append_nil, hln, cleanLine_lf]
            exact List.getLast?_concat _
          · exfalso
            have hlb : (c :: rest).getLast? = some b := by
              rw [hcps, hln]
              exact List.getLast?_concat _
            rw [hlb] at h
            injection h with h
            exact hb10 h
        · exfalso
          have hlast10 : (c :: rest).getLast? = some 10 := h
          rw [hcps, hln] at hlast10
          rcases List.getLast?_eq_some_iff.mp hlast10 with ⟨ys, hys⟩
          exact noB_ne_10 body hbody (by rw [hys]; simp)

theorem cleanBytes_none (raw : List Nat) (h : utf8Decode (replaceCRLF raw) = none) :
    cleanBytes raw = none := by
  unfold cleanBytes
  rw [h]

theorem cleanBytes_some (raw cps : List Nat) (h : utf8Decode (replaceCRLF raw) = some cps) :
    cleanBytes raw = some (utf8Encode (textClean cps)) := by
  unfold cleanBytes
  rw [h]

theorem normalize_text_file_some_file (raw : List Nat) :
    normalize_text_file (some ⟨true, raw⟩) =
      match cleanBytes raw with
      | none => (false, some ⟨true, raw⟩)
      | some cleaned =>
        if cleaned ≠ raw then (true, some ⟨true, cleaned⟩)
        else (false, some ⟨true, raw⟩) := rfl

theorem normalize_some_cleaned (raw cleaned : List Nat)
    (hcb : cleanBytes raw = some cleaned) :
    normalize_text_file (some ⟨true, raw⟩) =
      if cleaned ≠ raw then (true, some ⟨true, cleaned⟩)
      else (false, some ⟨true, raw⟩) := by
  rw [normalize_text_file_some_file, hcb]

/-- C7: normalization never fails the run: a path that does not exist
or is not a regular file is a no-op returning unchanged, and a file
whose bytes after CRLF replacement do not decode as UTF-8 is left
unchanged with the operation returning normally (the model is a total
function, so no failure is even expressible on these branches). -/
theorem C7_normalization_soft_skips :
    normalize_text_file none = (false, none) ∧
      (∀ e : FsEntry, e.isFile = false → normalize_text_file (some e) = (false, some e)) ∧
      (∀ e : FsEntry, utf8Decode (replaceCRLF e.bytes) = none →
        normalize_text_file (some e) = (false, some e)) := by
  refine ⟨rfl, ?_, ?_⟩
  · intro e he
    simp [normalize_text_file, he]
  · intro e he
    by_cases hf : e.isFile
    · obtain ⟨b, raw⟩ := e
      simp only at hf
      subst hf
      rw [normalize_text_file_some_file, cleanBytes_none raw he]
    · simp [normalize_text_file, hf]

/-- C7 witness: a directory entry and a non-UTF-8 file are both
soft-skipped. -/
theorem C7_witness :
    (FsEntry.mk false [1, 2]).isFile = false ∧
      utf8Decode (replaceCRLF (FsEntry.mk true [255]).bytes) = none ∧
      normalize_text_file (some (FsEntry.mk false [1, 2])) =
        (false, some (FsEntry.mk false [1, 2])) ∧
      normalize_text_file (some (FsEntry.mk true [255])) =
        (false, some (FsEntry.mk true [255])) :=
  ⟨rfl, by decide, C7_normalization_soft_skips.2.1 _ rfl,
    C7_normalization_soft_skips.2.2 _ (by decide)⟩

/-- C2 counterexample: the file `b"a\r\n \t"` contains a CRLF pair and
does not end with a line terminator, but its normalized form `b"a\n"`
does end with one: stripping the whitespace-only unterminated final
line changes the final-terminator state, so the claim as stated is
false. -/
theorem C2_counterexample : ¬ ClaimC2 := by
  intro h
  have h2 := h [97, 13, 10, 32, 9] ⟨true, [97, 10]⟩ ⟨[97], [32, 9], rfl⟩ (by decide)
  have h3 := h2.2.mp (by decide)
  exact absurd h3 (by decide)

/-- C2 as amended: for every file whose raw bytes contain a CRLF pair
and whose bytes after CRLF replacement decode as UTF-8, the normalized
bytes contain no CRLF pair (indeed no CR byte at all), and a final line
feed in the original is preserved in the output.  The converse
direction of the terminator preservation fails (a whitespace-only
unterminated final line is removed entirely, as the counterexample
shows), and a file that does not decode as UTF-8 is skipped unchanged,
CRLF included. -/
theorem C2_amended_crlf_removed (raw cps : List Nat) (hcrlf : pairAt 13 10 raw)
    (hdec : utf8Decode (replaceCRLF raw) = some cps) :
    ∃ e' : FsEntry, (normalize_text_file (some ⟨true, raw⟩)).2 = some e' ∧
      ¬ pairAt 13 10 e'.bytes ∧ 13 ∉ e'.bytes ∧
      (raw.getLast? = some 10 → e'.bytes.getLast? = some 10) := by
  have hcb : cleanBytes raw = some (utf8Encode (textClean cps)) :=
    cleanBytes_some raw cps hdec
  have h13 : 13 ∉ utf8Encode (textClean cps) :=
    utf8Encode_mem13 _ (CleanPred_textClean cps).1
  have hend : raw.getLast? = some 10 → (utf8Encode (textClean cps)).getLast? = some 10 := by
    intro hr
    have h1 : (replaceCRLF raw).getLast? = some 10 :=
      replaceCRLF_last10 raw.length raw le_rfl hr
    have h2 : utf8Encode cps = replaceCRLF raw := utf8Decode_encode _ _ hdec
    have h3 : cps.getLast? = some 10 := by
      rw [← utf8Encode_last cps 10 (by omega), h2]
      exact h1
    have h4 : (textClean cps).getLast? = some 10 :=
      textClean_last10 cps.length cps le_rfl h3
    exact (utf8Encode_last (textClean cps) 10 (by omega)).mpr h4
  rw [normalize_some_cleaned raw _ hcb]
  rcases eq_or_ne (utf8Encode (textClean cps)) raw with heq | heq
  · rw [if_neg (by simp [heq])]
    refine ⟨⟨true, raw⟩, rfl, ?_, heq ▸ h13, fun hr => heq ▸ hend hr⟩
    intro hp
    exact (heq ▸ h13) (pairAt_memL 13 10 _ hp)
  · rw [if_pos heq]
    refine ⟨⟨true, utf8Encode (textClean cps)⟩, rfl, ?_, h13, hend⟩
    intro hp
    exact h13 (pairAt_memL 13 10 _ hp)

/-- C2 amended witness: the file `b"a\r\n"` normalizes to `b"a\n"`. -/
theorem C2_amended_witness :
    pairAt 13 10 [97, 13, 10] ∧
      utf8Decode (replaceCRLF [97, 13, 10]) = some [97, 10] ∧
      ∃ e' : FsEntry, (normalize_text_file (some ⟨true, [97, 13, 10]⟩)).2 = some e' ∧
        ¬ pairAt 13 10 e'.bytes ∧ 13 ∉ e'.bytes ∧
        (([97, 13, 10] : List Nat).getLast? = some 10 → e'.bytes.getLast? = some 10) :=
  ⟨⟨[97], [], rfl⟩, by decide,
    C2_amended_crlf_removed [97, 13, 10] [97, 10] ⟨[97], [], rfl⟩ (by decide)⟩

/-- C8: a file whose bytes are already LF-only (no carriage return)
with no space/tab immediately before a line feed and no trailing
space/tab at end of file is reported unchanged (the call returns
`False`) and the bytes on disk stay byte-for-byte identical. -/
theorem C8_already_clean_unchanged (raw : List Nat) (h13 : 13 ∉ raw)
    (hws : noWsLFb raw = true) (hlast : lastNotWs2b raw = true) :
    normalize_text_file (some ⟨true, raw⟩) = (false, some ⟨true, raw⟩) := by
  have hrep : replaceCRLF raw = raw := replaceCRLF_13free raw h13
  cases hdec : utf8Decode (replaceCRLF raw) with
  | none => rw [normalize_text_file_some_file, cleanBytes_none raw hdec]
  | some cps =>
    have henc : utf8Encode cps = raw := by
      have h2 := utf8Decode_encode _ _ hdec
      rw [hrep] at h2
      exact h2
    have hcp : CleanPred cps := by
      refine ⟨?_, ?_, ?_⟩
      · intro hm
        exact h13 (henc ▸ utf8Encode_mem_small 13 cps hm (by omega))
      · intro w hw hp
        have hw128 : w < 128 := by
          simp only [isWs2, Bool.or_eq_true, beq_iff_eq] at hw
          omega
        have hpr : pairAt w 10 raw :=
          henc ▸ pairAt_encode w 10 cps hw128 (by omega) hp
        exact noWsLFb_sound raw hws w hw hpr
      · intro w hw
        cases hw2 : isWs2 w
        · rfl
        · exfalso
          have hw128 : w < 128 := by
            simp only [isWs2, Bool.or_eq_true, beq_iff_eq] at hw2
            omega
          have hrl : raw.getLast? = some w := by
            rw [← henc]
            exact (utf8Encode_last cps w hw128).mpr hw
          have hres := lastNotWs2b_sound raw hlast w hrl
          rw [hw2] at hres
          exact Bool.false_ne_true hres.symm
    have hcb : cleanBytes raw = some raw := by
      rw [cleanBytes_some raw cps hdec, textClean_of_CleanPred cps hcp, henc]
    rw [normalize_some_cleaned raw raw hcb, if_neg (by simp)]

/-- C8 witness: the file `b"a\n"` is left untouched and unreported. -/
theorem C8_witness :
    13 ∉ ([97, 10] : List Nat) ∧ noWsLFb [97, 10] = true ∧
      lastNotWs2b [97, 10] = true ∧
      normalize_text_file (some ⟨true, [97, 10]⟩) = (false, some ⟨true, [97, 10]⟩) :=
  ⟨by decide, by decide, by decide,
    C8_already_clean_unchanged [97, 10] (by decide) (by decide) (by decide)⟩

/-- C9: normalization is idempotent: the byte transform applied to its
own output returns the same bytes, so a second `normalize_text_file`
run on an already-normalized file reports no change. -/
theorem C9_normalization_idempotent (raw : List Nat) :
    normBytes (normBytes raw) = normBytes raw ∧
      (normalize_text_file (some ⟨true, normBytes raw⟩)).1 = false := by
  cases hdec : utf8Decode (replaceCRLF raw) with
  | none =>
    have hnb : normBytes raw = raw := by
      unfold normBytes
      rw [cleanBytes_none raw hdec]
    constructor
    · rw [hnb]
      exact hnb
    · rw [hnb, normalize_text_file_some_file, cleanBytes_none raw hdec]
  | some cps =>
    have hnb : normBytes raw = utf8Encode (textClean cps) := by
      unfold normBytes
      rw [cleanBytes_some raw cps hdec]
    have hval : ∀ c ∈ textClean cps, ValidScalar c := by
      intro c hc
      rcases textClean_mem cps c hc with h | rfl
      · exact utf8Decode_valid _ _ hdec c h
      · exact ⟨by omega, by omega⟩
    have h13 : 13 ∉ utf8Encode (textClean cps) :=
      utf8Encode_mem13 _ (CleanPred_textClean cps).1
    have hcb2 : cleanBytes (utf8Encode (textClean cps)) =
        some (utf8Encode (textClean cps)) := by
      have hfix := textClean_of_CleanPred (textClean cps) (CleanPred_textClean cps)
      unfold cleanBytes
      rw [replaceCRLF_13free _ h13, utf8Decode_of_encode _ hval]
      show some (utf8Encode (textClean (textClean cps))) = some (utf8Encode (textClean cps))
      rw [hfix]
    constructor
    · rw [hnb]
      unfold normBytes
      rw [hcb2]
    · rw [hnb]
      simp [normalize_text_file_some_file, hcb2]

end CommitPush
